import Mathlib

/-!
Verification of the duplicate-review reconciliation engine
(frontend component `SimilarityGroupViewInner` and `lib/storage.ts`).

Conventions of the shallow embedding:

* JavaScript objects used as string-keyed maps are association lists
  `List (String × Bool)`; `lookupKey`/`updateKey` model property read and
  `obj[k] = v` (an existing key keeps its position, a new key is appended,
  matching JS enumeration order).
* Similarity values are exact rationals (`ℚ`).  A group's similarity level
  `Math.round(max_similarity * 1000) / 10` (a percentage with one decimal)
  is represented by the integer `Math.round(max_similarity * 1000)`, i.e.
  in tenths of a percent.  Dividing by the constant 10 is a strictly
  monotone rescaling, so every comparison the component performs on levels
  and range bounds is preserved; range bounds (`similarityRangeStart`,
  `similarityRangeEnd`, default `100.0`/`99.9`) are likewise integers in
  tenths of a percent (`1000`/`999`).
* The fractional page-size thresholds compare an integer group count
  `n` with `0.8 * t`, `1.5 * t`, `0.5 * t` for an integer target `t`; these
  comparisons are expressed exactly over ℕ as `4 * t ≤ 5 * n`,
  `3 * t < 2 * n` and `2 * n < t`.
* `Array.prototype.sort` (stable, ES2019) is modelled by the stable
  `List.insertionSort`.
-/

set_option maxRecDepth 8000

namespace Testpoint

/-- Association-list read, modelling `obj[k]` / `k in obj` on a JS object. -/
def lookupKey {β : Type} : List (String × β) → String → Option β
  | [], _ => none
  | (k, v) :: rest, f => if k = f then some v else lookupKey rest f

/-- Association-list write, modelling `obj[k] = v`: an existing key keeps its
position, a new key is appended at the end (JS enumeration order). -/
def updateKey {β : Type} : List (String × β) → String → β → List (String × β)
  | [], f, b => [(f, b)]
  | (k, v) :: rest, f, b => if k = f then (k, b) :: rest else (k, v) :: updateKey rest f b

/-- `DuplicateGroup` as received from the backend (`Group` in the TS code). -/
structure Group where
  files : List String
  max_similarity : ℚ
  similarities : List (String × String × ℚ)
deriving DecidableEq

/-- `Math.round(q * 1000)` for a rational `q`: JS `Math.round x = ⌊x + 1/2⌋`,
and `⌊1000 q + 1/2⌋ = (2000 num + den) fdiv (2 den)`. -/
def jsRound1000 (q : ℚ) : ℤ :=
  Int.fdiv (2000 * q.num + (q.den : ℤ)) (2 * (q.den : ℤ))

/-- The group's similarity level in tenths of a percent:
`Math.round(group.max_similarity * 1000)` (the TS code divides by 10). -/
def levelOf (g : Group) : ℤ :=
  jsRound1000 g.max_similarity

/-- `groups[i].files`, with an out-of-range index giving no files. -/
def filesOf (groups : List Group) (i : ℕ) : List String :=
  ((groups[i]?).map Group.files).getD []

/-- JS truthiness of the `limit && count >= limit` guard in
`calculateGroupsInRange` (`undefined` and `0` are falsy). -/
def limitReached (limit : Option ℕ) (n : ℕ) : Bool :=
  match limit with
  | none => false
  | some l => decide (0 < l) && decide (l ≤ n)

/-- The `for` loop of `calculateGroupsInRange`, with the early `break`
when the limit is reached. -/
def cgirGo (start stop : ℤ) (limit : Option ℕ) : List (ℕ × Group) → List ℕ → List ℕ
  | [], acc => acc
  | (i, g) :: rest, acc =>
    if levelOf g ≤ start ∧ stop ≤ levelOf g then
      let acc2 := acc ++ [i]
      if limitReached limit acc2.length then acc2 else cgirGo start stop limit rest acc2
    else cgirGo start stop limit rest acc

/-- `calculateGroupsInRange(start, end, limit?)`: indices of the groups whose
similarity level lies in the inclusive band `[end, start]`, stopping early at
`limit` entries when a (nonzero) limit is given. -/
def calculateGroupsInRange (groups : List Group) (start stop : ℤ) (limit : Option ℕ) : List ℕ :=
  cgirGo start stop limit groups.enum []

/-- Sorted (descending) list of distinct similarity levels
(`similarityLevels` state built by `initializeGroups`). -/
def similarityLevelsOf (groups : List Group) : List ℤ :=
  ((groups.map levelOf).dedup).insertionSort (fun a b => b ≤ a)

/-- `similarityLevels[similarityLevels.length - 1]`, the minimum level. -/
def minLevelOf (groups : List Group) : ℤ :=
  (similarityLevelsOf groups).getLastD 0

/-- `getGroupsForCurrentPage()`: all groups of the current range, no limit. -/
def getGroupsForCurrentPage (groups : List Group) (rangeStart rangeEnd : ℤ) : List ℕ :=
  calculateGroupsInRange groups rangeStart rangeEnd none

/-- `hasNextPage()`: true when the current range end is above the minimum
level, otherwise scan all groups for one outside the current range whose
level is strictly below the range end. -/
def hasNextPage (groups : List Group) (rangeStart rangeEnd : ℤ) : Bool :=
  if (similarityLevelsOf groups).isEmpty || groups.isEmpty then false
  else if minLevelOf groups < rangeEnd then true
  else
    let inRange := calculateGroupsInRange groups rangeStart rangeEnd none
    groups.enum.any (fun p => !(inRange.contains p.1) && decide (levelOf p.2 < rangeEnd))

/-! ### Basic facts about the pagination primitives -/

theorem cgirGo_none_eq (start stop : ℤ) :
    ∀ (l : List (ℕ × Group)) (acc : List ℕ),
      cgirGo start stop none l acc =
        acc ++ (l.filter (fun p => decide (levelOf p.2 ≤ start ∧ stop ≤ levelOf p.2))).map Prod.fst
  | [], acc => by simp [cgirGo]
  | (i, g) :: rest, acc => by
    simp only [cgirGo, limitReached, List.filter_cons]
    by_cases h : levelOf g ≤ start ∧ stop ≤ levelOf g
    · simp [h, cgirGo_none_eq start stop rest (acc ++ [i])]
    · simp [h, cgirGo_none_eq start stop rest acc]

theorem mem_calculateGroupsInRange {groups : List Group} {start stop : ℤ} {i : ℕ} :
    i ∈ calculateGroupsInRange groups start stop none ↔
      ∃ g, groups[i]? = some g ∧ levelOf g ≤ start ∧ stop ≤ levelOf g := by
  unfold calculateGroupsInRange
  rw [cgirGo_none_eq]
  simp only [List.nil_append, List.mem_map, List.mem_filter]
  constructor
  · rintro ⟨⟨j, g⟩, ⟨hmem, hlev⟩, rfl⟩
    exact ⟨g, List.mem_enum_iff_getElem?.mp hmem, by simpa using hlev⟩
  · rintro ⟨g, hget, hlev⟩
    exact ⟨(i, g), ⟨List.mem_enum_iff_getElem?.mpr hget, by simpa using hlev⟩, rfl⟩

theorem nodup_calculateGroupsInRange (groups : List Group) (start stop : ℤ) :
    (calculateGroupsInRange groups start stop none).Nodup := by
  unfold calculateGroupsInRange
  rw [cgirGo_none_eq]
  simp only [List.nil_append]
  have hsub := (List.filter_sublist (l := groups.enum)
    (p := fun p => decide (levelOf p.2 ≤ start ∧ stop ≤ levelOf p.2))).map Prod.fst
  rw [List.enum_map_fst] at hsub
  exact hsub.nodup (List.nodup_range _)

theorem mem_similarityLevelsOf {groups : List Group} {a : ℤ} :
    a ∈ similarityLevelsOf groups ↔ a ∈ groups.map levelOf := by
  unfold similarityLevelsOf
  rw [List.mem_insertionSort, List.mem_dedup]

theorem sorted_similarityLevelsOf (groups : List Group) :
    (similarityLevelsOf groups).Sorted (fun a b => b ≤ a) := by
  unfold similarityLevelsOf
  have htot : IsTotal ℤ (fun a b => b ≤ a) := ⟨fun a b => le_total b a⟩
  have htrans : IsTrans ℤ (fun a b => b ≤ a) := ⟨fun _ _ _ h1 h2 => le_trans h2 h1⟩
  exact List.sorted_insertionSort _ _

theorem getLast?_le_of_sorted_ge :
    ∀ {l : List ℤ}, l.Sorted (fun a b => b ≤ a) → ∀ {x m : ℤ}, x ∈ l → l.getLast? = some m → m ≤ x
  | [], _, _, _, hx, _ => absurd hx (List.not_mem_nil _)
  | a :: t, h, x, m, hx, hm => by
    rw [List.sorted_cons] at h
    rcases List.mem_cons.mp hx with rfl | hxt
    · cases t with
      | nil => simp_all
      | cons b t2 =>
        rw [List.getLast?_cons_cons, List.getLast?_eq_getLast _ (by simp),
          Option.some_inj] at hm
        exact h.1 m (hm ▸ List.getLast_mem _)
    · cases t with
      | nil => exact absurd hxt (List.not_mem_nil _)
      | cons b t2 =>
        rw [List.getLast?_cons_cons] at hm
        exact getLast?_le_of_sorted_ge h.2 hxt hm

theorem minLevelOf_le {groups : List Group} {g : Group} (hg : g ∈ groups) :
    minLevelOf groups ≤ levelOf g := by
  have hmem : levelOf g ∈ similarityLevelsOf groups :=
    mem_similarityLevelsOf.mpr (List.mem_map_of_mem levelOf hg)
  have hne : similarityLevelsOf groups ≠ [] := by
    intro h
    rw [h] at hmem
    exact List.not_mem_nil _ hmem
  unfold minLevelOf
  rw [List.getLastD_eq_getLast?, List.getLast?_eq_getLast _ hne]
  exact getLast?_le_of_sorted_ge (sorted_similarityLevelsOf groups) hmem
    (List.getLast?_eq_getLast _ hne)

/-- A group whose similarity rounds to level 100.0% (1000 tenths). -/
def wGroupA : Group := ⟨["fileA"], ⟨1, 1, by decide, by decide⟩, []⟩

/-- A group whose similarity rounds to level 99.9% (999 tenths). -/
def wGroupB : Group := ⟨["fileB"], ⟨999, 1000, by decide, by decide⟩, []⟩

/-- C1: for every loaded group list and every current range, (a) every group
whose similarity level lies in the inclusive band `[end, start]` is on the
current page (`getGroupsForCurrentPage` applies no page-size cap, so the
claim's "excluded by a page-size cap" situation cannot arise); (b)
`hasNextPage()` returns true whenever some group's level lies strictly below
the current range's end; (c) a fortiori, `hasNextPage()` returns true
whenever some group with level inside `[end, start]` is absent from the
current page (vacuously, by (a)) — which covers the claim's `end == minLevel`
size-cap scenario. -/
theorem hasNextPage_correct (groups : List Group) (rangeStart rangeEnd : ℤ) :
    (∀ (i : ℕ) (g : Group), groups[i]? = some g → levelOf g ≤ rangeStart → rangeEnd ≤ levelOf g →
      i ∈ getGroupsForCurrentPage groups rangeStart rangeEnd) ∧
    ((∃ (i : ℕ) (g : Group), groups[i]? = some g ∧ levelOf g < rangeEnd) →
      hasNextPage groups rangeStart rangeEnd = true) ∧
    (∀ (i : ℕ) (g : Group), groups[i]? = some g → rangeEnd ≤ levelOf g → levelOf g ≤ rangeStart →
      i ∉ getGroupsForCurrentPage groups rangeStart rangeEnd →
      hasNextPage groups rangeStart rangeEnd = true) := by
  refine ⟨?_, ?_, ?_⟩
  · intro i g hget h1 h2
    exact mem_calculateGroupsInRange.mpr ⟨g, hget, h1, h2⟩
  · rintro ⟨i, g, hget, hlt⟩
    have hglen : i < groups.length := by
      by_contra hge
      rw [List.getElem?_eq_none (Nat.le_of_not_lt hge)] at hget
      exact Option.noConfusion hget
    have hgmem : g ∈ groups := by
      obtain ⟨h, rfl⟩ := List.getElem?_eq_some.mp hget
      exact List.getElem_mem h
    have hmin : minLevelOf groups < rangeEnd := lt_of_le_of_lt (minLevelOf_le hgmem) hlt
    have hgne : groups.isEmpty = false := by
      cases groups with
      | nil => exact absurd hgmem (List.not_mem_nil _)
      | cons a t => rfl
    have hlne : (similarityLevelsOf groups).isEmpty = false := by
      have hmem : levelOf g ∈ similarityLevelsOf groups :=
        mem_similarityLevelsOf.mpr (List.mem_map_of_mem levelOf hgmem)
      cases hl : similarityLevelsOf groups with
      | nil => rw [hl] at hmem; exact absurd hmem (List.not_mem_nil _)
      | cons a t => rfl
    unfold hasNextPage
    rw [hlne, hgne]
    simp [hmin]
  · intro i g hget h1 h2 hnotmem
    exact absurd (mem_calculateGroupsInRange.mpr ⟨g, hget, h2, h1⟩) hnotmem

/-- C1 witness: with groups at levels 100.0 and 99.9 and current range
`[100.0, 100.0]`, a group exists strictly below the range end, and
`hasNextPage` returns true. -/
theorem hasNextPage_correct_witness :
    (([wGroupA, wGroupB] : List Group)[1]? = some wGroupB ∧ levelOf wGroupB < 1000) ∧
      hasNextPage [wGroupA, wGroupB] 1000 1000 = true :=
  ⟨⟨by decide, by decide⟩,
    (hasNextPage_correct [wGroupA, wGroupB] 1000 1000).2.1 ⟨1, wGroupB, by decide, by decide⟩⟩

/-! ### `calculateRangeFromTargetGroups` (RangePaginator accumulation) -/

/-- `ReviewRange` `{start, end}` in tenths of a percent (`stop` models the TS
field `end`, a Lean keyword). -/
structure ReviewRange where
  start : ℤ
  stop : ℤ
deriving DecidableEq

/-- `groupsBySimilarity[level].length`: how many groups round to `level`. -/
def countAtLevel (groups : List Group) (level : ℤ) : ℕ :=
  (groups.filter (fun g => levelOf g = level)).length

/-- The accumulation loop of `calculateRangeFromTargetGroups`: add whole
levels downward, stopping when the total reaches approximately the target
(`total >= 0.8*target && total >= target`, exactly `4t ≤ 5n ∧ t ≤ n`) or
exceeds it badly (`total > 1.5*target`, exactly `3t < 2n`). -/
def accumulateLevels (groups : List Group) (target : ℕ) : List ℤ → ℕ → ℤ → ℕ × ℤ
  | [], total, curEnd => (total, curEnd)
  | l :: rest, total, _ =>
    let total2 := total + countAtLevel groups l
    if 4 * target ≤ 5 * total2 ∧ target ≤ total2 then (total2, l)
    else if 3 * target < 2 * total2 then (total2, l)
    else accumulateLevels groups target rest total2 l

/-- `calculateRangeFromTargetGroups(startPoint, targetGroups)`. -/
def calculateRangeFromTargetGroups (groups : List Group) (startPoint : ℤ) (targetGroups : ℕ) :
    ReviewRange :=
  let levels := similarityLevelsOf groups
  if levels.isEmpty then { start := 1000, stop := 999 }
  else
    match levels.findIdx? (fun l => decide (l ≤ startPoint)) with
    | none =>
      let lastLevel := levels.getLastD 0
      { start := lastLevel, stop := lastLevel }
    | some startIndex =>
      let rangeStart := levels.getD startIndex 0
      let res := accumulateLevels groups targetGroups (levels.drop startIndex) 0 rangeStart
      if 2 * res.1 < targetGroups then
        let minLevel := levels.getLastD 0
        let allRemaining := (calculateGroupsInRange groups rangeStart minLevel none).length
        if 0 < allRemaining then { start := rangeStart, stop := minLevel }
        else { start := rangeStart, stop := res.2 }
      else { start := rangeStart, stop := res.2 }

/-- Running total after the accumulation loop has consumed levels
`0..j` of `lvls`. -/
def cumulativeCount (groups : List Group) (lvls : List ℤ) (j : ℕ) : ℕ :=
  ((lvls.take (j + 1)).map (countAtLevel groups)).sum

theorem cumulativeCount_cons_zero (groups : List Group) (l : ℤ) (rest : List ℤ) :
    cumulativeCount groups (l :: rest) 0 = countAtLevel groups l := by
  simp [cumulativeCount]

theorem cumulativeCount_cons_succ (groups : List Group) (l : ℤ) (rest : List ℤ) (k : ℕ) :
    cumulativeCount groups (l :: rest) (k + 1) = countAtLevel groups l + cumulativeCount groups rest k := by
  simp [cumulativeCount, List.take_succ_cons]

theorem findIdx?_some_lt_length {α : Type} {p : α → Bool} :
    ∀ (l : List α) (i j : ℕ), l.findIdx? p i = some j → j < i + l.length
  | [], _, _, h => Option.noConfusion h
  | x :: xs, i, j, h => by
    rw [List.findIdx?_cons] at h
    by_cases hp : p x = true
    · rw [if_pos hp, Option.some_inj] at h
      simp only [List.length_cons]
      omega
    · rw [if_neg hp] at h
      have := findIdx?_some_lt_length xs (i + 1) j h
      simp only [List.length_cons]
      omega

theorem accumulateLevels_stops (groups : List Group) (t : ℕ) :
    ∀ (lvls : List ℤ) (j : ℕ) (total : ℕ) (c : ℤ),
      j < lvls.length →
      (∀ k, k < j → ¬ t ≤ total + cumulativeCount groups lvls k) →
      t ≤ total + cumulativeCount groups lvls j →
      accumulateLevels groups t lvls total c =
        (total + cumulativeCount groups lvls j, lvls.getD j 0)
  | [], j, _, _, hj, _, _ => absurd hj (by simp)
  | l :: rest, 0, total, c, _, _, hstop => by
    rw [cumulativeCount_cons_zero] at hstop
    have hcond : 4 * t ≤ 5 * (total + countAtLevel groups l) ∧ t ≤ total + countAtLevel groups l := by
      omega
    simp [accumulateLevels, hcond, cumulativeCount_cons_zero]
  | l :: rest, j + 1, total, c, hj, hmin, hstop => by
    have h0 : ¬ t ≤ total + countAtLevel groups l := by
      have := hmin 0 (Nat.succ_pos j)
      rwa [cumulativeCount_cons_zero] at this
    have hc1 : ¬ (4 * t ≤ 5 * (total + countAtLevel groups l) ∧ t ≤ total + countAtLevel groups l) := by
      omega
    have hc2 : ¬ (3 * t < 2 * (total + countAtLevel groups l)) := by omega
    have hrec := accumulateLevels_stops groups t rest j (total + countAtLevel groups l) l
      (by simpa using Nat.lt_of_succ_lt_succ (by simpa using hj))
      (fun k hk => by
        have := hmin (k + 1) (Nat.succ_lt_succ hk)
        rwa [cumulativeCount_cons_succ, ← Nat.add_assoc] at this)
      (by rw [cumulativeCount_cons_succ, ← Nat.add_assoc] at hstop; exact hstop)
    simp only [accumulateLevels, if_neg hc1, if_neg hc2]
    rw [hrec, cumulativeCount_cons_succ, ← Nat.add_assoc]
    rfl

theorem accumulateLevels_exhausts (groups : List Group) (t : ℕ) :
    ∀ (lvls : List ℤ) (total : ℕ) (c : ℤ),
      (∀ k, k < lvls.length → ¬ t ≤ total + cumulativeCount groups lvls k) →
      (accumulateLevels groups t lvls total c).2 = lvls.getLastD c
  | [], total, c, _ => rfl
  | l :: rest, total, c, hno => by
    have h0 : ¬ t ≤ total + countAtLevel groups l := by
      have := hno 0 (by simp)
      rwa [cumulativeCount_cons_zero] at this
    have hc1 : ¬ (4 * t ≤ 5 * (total + countAtLevel groups l) ∧ t ≤ total + countAtLevel groups l) := by
      omega
    have hc2 : ¬ (3 * t < 2 * (total + countAtLevel groups l)) := by omega
    have hrec := accumulateLevels_exhausts groups t rest (total + countAtLevel groups l) l
      (fun k hk => by
        have := hno (k + 1) (by simpa using Nat.succ_lt_succ hk)
        rwa [cumulativeCount_cons_succ, ← Nat.add_assoc] at this)
    simp only [accumulateLevels, if_neg hc1, if_neg hc2]
    rw [hrec, List.getLastD_cons]

theorem getLastD_drop_of_lt {l : List ℤ} {n : ℕ} (h : n < l.length) (d d2 : ℤ) :
    (l.drop n).getLastD d = l.getLastD d2 := by
  rw [List.getLastD_eq_getLast?, List.getLastD_eq_getLast?, List.getLast?_drop,
    if_neg (Nat.not_le.mpr h)]
  cases hl : l.getLast? with
  | none =>
    rw [List.getLast?_eq_none_iff] at hl
    rw [hl] at h
    simp at h
  | some m => rfl

/-- C6: starting from the level selected for `startPoint`, the computed range
(a) starts at that level; (b) ends at the first level where the running group
total reaches both `0.8 × target` and `target` (exact integer forms
`4t ≤ 5n` and `t ≤ n`), when such a level exists; and (c) when no level ever
reaches the stop threshold, the range extends to the lowest level and every
group from the start level downward is on the resulting page (no group is
left unreachable). -/
theorem calculateRangeFromTargetGroups_correct (groups : List Group) (startPoint : ℤ) (t : ℕ)
    (si : ℕ)
    (hsi : (similarityLevelsOf groups).findIdx? (fun l => decide (l ≤ startPoint)) = some si) :
    (calculateRangeFromTargetGroups groups startPoint t).start
        = (similarityLevelsOf groups).getD si 0 ∧
    (∀ j, j < ((similarityLevelsOf groups).drop si).length →
      (4 * t ≤ 5 * cumulativeCount groups ((similarityLevelsOf groups).drop si) j ∧
        t ≤ cumulativeCount groups ((similarityLevelsOf groups).drop si) j) →
      (∀ k, k < j →
        ¬ (4 * t ≤ 5 * cumulativeCount groups ((similarityLevelsOf groups).drop si) k ∧
          t ≤ cumulativeCount groups ((similarityLevelsOf groups).drop si) k)) →
      (calculateRangeFromTargetGroups groups startPoint t).stop
        = ((similarityLevelsOf groups).drop si).getD j 0) ∧
    ((∀ j, j < ((similarityLevelsOf groups).drop si).length →
        ¬ (4 * t ≤ 5 * cumulativeCount groups ((similarityLevelsOf groups).drop si) j ∧
          t ≤ cumulativeCount groups ((similarityLevelsOf groups).drop si) j)) →
      (calculateRangeFromTargetGroups groups startPoint t).stop = minLevelOf groups ∧
      ∀ (i : ℕ) (g : Group), groups[i]? = some g →
        levelOf g ≤ (calculateRangeFromTargetGroups groups startPoint t).start →
        i ∈ getGroupsForCurrentPage groups
            (calculateRangeFromTargetGroups groups startPoint t).start
            (calculateRangeFromTargetGroups groups startPoint t).stop) := by
  have hsilt : si < (similarityLevelsOf groups).length := by
    simpa using findIdx?_some_lt_length _ 0 si hsi
  have hie : (similarityLevelsOf groups).isEmpty = false := by
    cases hl : similarityLevelsOf groups with
    | nil => rw [hl] at hsilt; simp at hsilt
    | cons a t2 => rfl
  have hshape : calculateRangeFromTargetGroups groups startPoint t =
      (if 2 * (accumulateLevels groups t ((similarityLevelsOf groups).drop si) 0
          ((similarityLevelsOf groups).getD si 0)).1 < t then
        if 0 < (calculateGroupsInRange groups ((similarityLevelsOf groups).getD si 0)
            ((similarityLevelsOf groups).getLastD 0) none).length then
          { start := (similarityLevelsOf groups).getD si 0,
            stop := (similarityLevelsOf groups).getLastD 0 }
        else
          { start := (similarityLevelsOf groups).getD si 0,
            stop := (accumulateLevels groups t ((similarityLevelsOf groups).drop si) 0
              ((similarityLevelsOf groups).getD si 0)).2 }
      else
        { start := (similarityLevelsOf groups).getD si 0,
          stop := (accumulateLevels groups t ((similarityLevelsOf groups).drop si) 0
            ((similarityLevelsOf groups).getD si 0)).2 }) := by
    simp only [calculateRangeFromTargetGroups, hie, hsi, Bool.false_eq_true, if_false]
  have hstart : (calculateRangeFromTargetGroups groups startPoint t).start
      = (similarityLevelsOf groups).getD si 0 := by
    rw [hshape]
    split_ifs <;> rfl
  refine ⟨hstart, ?_, ?_⟩
  · intro j hj hstop hmin
    have hacc := accumulateLevels_stops groups t ((similarityLevelsOf groups).drop si) j 0
      ((similarityLevelsOf groups).getD si 0) hj
      (fun k hk => by have := hmin k hk; omega)
      (by omega)
    rw [hshape, hacc]
    have hcond : ¬ 2 * (0 + cumulativeCount groups ((similarityLevelsOf groups).drop si) j,
        ((similarityLevelsOf groups).drop si).getD j 0).1 < t := by
      simp only [Nat.zero_add]
      omega
    rw [if_neg hcond]
  · intro hno
    have hacc2 := accumulateLevels_exhausts groups t ((similarityLevelsOf groups).drop si) 0
      ((similarityLevelsOf groups).getD si 0)
      (fun k hk => by have := hno k hk; omega)
    have hlast : ((similarityLevelsOf groups).drop si).getLastD
        ((similarityLevelsOf groups).getD si 0) = (similarityLevelsOf groups).getLastD 0 :=
      getLastD_drop_of_lt hsilt _ _
    have hstop2 : (calculateRangeFromTargetGroups groups startPoint t).stop
        = minLevelOf groups := by
      rw [hshape]
      split_ifs with h1 h2
      · rfl
      · show (accumulateLevels groups t ((similarityLevelsOf groups).drop si) 0
            ((similarityLevelsOf groups).getD si 0)).2 = minLevelOf groups
        rw [hacc2, hlast]; rfl
      · show (accumulateLevels groups t ((similarityLevelsOf groups).drop si) 0
            ((similarityLevelsOf groups).getD si 0)).2 = minLevelOf groups
        rw [hacc2, hlast]; rfl
    refine ⟨hstop2, ?_⟩
    intro i g hget hle
    have hgmem : g ∈ groups := by
      obtain ⟨h, rfl⟩ := List.getElem?_eq_some.mp hget
      exact List.getElem_mem h
    rw [hstart] at hle
    rw [hstart, hstop2]
    exact mem_calculateGroupsInRange.mpr ⟨g, hget, hle, minLevelOf_le hgmem⟩

/-- The 130-group scenario from the spec: 50 groups at level 100.0 and 80
groups at level 99.9. -/
def wLevelsGroups : List Group :=
  List.replicate 50 wGroupA ++ List.replicate 80 wGroupB

/-- C6 witness: with target 100 and levels 100.0 (50 groups) and 99.9 (80
groups), the accumulation stops at level 99.9 (50 < 0.8 × 100 but 130 ≥ 100),
giving `{start: 100.0, end: 99.9}` and covering all 130 groups. -/
theorem calculateRangeFromTargetGroups_correct_witness :
    (1 < ((similarityLevelsOf wLevelsGroups).drop 0).length ∧
      (4 * 100 ≤ 5 * cumulativeCount wLevelsGroups ((similarityLevelsOf wLevelsGroups).drop 0) 1 ∧
        100 ≤ cumulativeCount wLevelsGroups ((similarityLevelsOf wLevelsGroups).drop 0) 1)) ∧
    (calculateRangeFromTargetGroups wLevelsGroups 1000 100).stop
        = ((similarityLevelsOf wLevelsGroups).drop 0).getD 1 0 ∧
    calculateRangeFromTargetGroups wLevelsGroups 1000 100 = ⟨1000, 999⟩ ∧
    (getGroupsForCurrentPage wLevelsGroups 1000 999).length = 130 :=
  ⟨⟨by decide, by decide, by decide⟩,
    (calculateRangeFromTargetGroups_correct wLevelsGroups 1000 100 0 (by decide)).2.1 1
      (by decide) ⟨by decide, by decide⟩ (by decide),
    by decide, by decide⟩

/-! ### Association-list and fold helper lemmas -/

theorem lookupKey_updateKey_self {β : Type} :
    ∀ (m : List (String × β)) (f : String) (b : β), lookupKey (updateKey m f b) f = some b
  | [], f, b => by simp [lookupKey, updateKey]
  | (k, v) :: rest, f, b => by
    by_cases h : k = f
    · simp [lookupKey, updateKey, h]
    · simp only [updateKey, if_neg h, lookupKey, if_neg h]
      exact lookupKey_updateKey_self rest f b

theorem lookupKey_updateKey_ne {β : Type} :
    ∀ (m : List (String × β)) (f f2 : String) (b : β), f ≠ f2 →
      lookupKey (updateKey m f b) f2 = lookupKey m f2
  | [], f, f2, b, h => by simp [lookupKey, updateKey, h]
  | (k, v) :: rest, f, f2, b, h => by
    by_cases hk : k = f
    · subst hk
      simp [lookupKey, updateKey, h]
    · simp only [updateKey, if_neg hk, lookupKey]
      by_cases hk2 : k = f2
      · simp [hk2]
      · simp only [if_neg hk2]
        exact lookupKey_updateKey_ne rest f f2 b h

theorem foldl_preserves {σ α : Type} (step : σ → α → σ) (P : σ → Prop)
    (hpres : ∀ s x, P s → P (step s x)) :
    ∀ (l : List α) (s : σ), P s → P (l.foldl step s)
  | [], _, hs => hs
  | x :: rest, s, hs => foldl_preserves step P hpres rest (step s x) (hpres s x hs)

theorem foldl_establishes {σ α : Type} [DecidableEq α] (step : σ → α → σ) (P : σ → Prop)
    (f : α) (hest : ∀ s, P (step s f)) (hpres : ∀ s x, P s → P (step s x)) :
    ∀ (l : List α) (init : σ), f ∈ l → P (l.foldl step init)
  | [], _, hf => absurd hf (List.not_mem_nil _)
  | x :: rest, init, hf => by
    by_cases hx : f ∈ rest
    · exact foldl_establishes step P f hest hpres rest (step init x) hx
    · have hfx : x = f := by
        rcases List.mem_cons.mp hf with h | h
        · exact h.symm
        · exact absurd h hx
      subst hfx
      exact foldl_preserves step P hpres rest (step init x) (hest init)

/-! ### `autoSelectBestMCQ` (SelectionReconciler heuristic) -/

/-- Authoritative `RecordStatus` from the backend
(`fileStatusContext.getFileStatus(f)?.status || 'unknown'`). -/
inductive FileStatus where
  | saved
  | removed
  | unknown
deriving DecidableEq

/-- One entry of the `unknownFiles` candidate array. -/
structure UnknownFile where
  filename : String
  hasYear : Bool
  fileNum : ℕ
deriving DecidableEq

/-- `parseInt(filename.replace(/\D/g, '')) || 999999`: keep the digits of the
filename and read them as a number; an empty digit string (`NaN`) or the
number `0` are falsy and fall back to `999999`. -/
def fileNumOf (filename : String) : ℕ :=
  let digits := filename.toList.filter Char.isDigit
  let n := digits.foldl (fun acc c => 10 * acc + (c.toNat - 48)) 0
  if digits.isEmpty ∨ n = 0 then 999999 else n

/-- The comparator of the `unknownFiles.sort`: a file may precede another iff
it has a year and the other does not, or they tie on `hasYear` and its
`fileNum` is no larger (`a.hasYear ? -1 : 1` / `a.fileNum - b.fileNum`). -/
def rankLe (a b : UnknownFile) : Prop :=
  if a.hasYear ≠ b.hasYear then a.hasYear = true else a.fileNum ≤ b.fileNum

instance : DecidableRel rankLe := fun a b => by
  unfold rankLe
  infer_instance

instance : IsTotal UnknownFile rankLe :=
  ⟨fun a b => by
    unfold rankLe
    by_cases h : a.hasYear = b.hasYear
    · simp only [h]
      simp [Nat.le_total]
    · cases ha : a.hasYear <;> simp_all⟩

instance : IsTrans UnknownFile rankLe :=
  ⟨fun a b c hab hbc => by
    unfold rankLe at *
    cases ha : a.hasYear <;> cases hb : b.hasYear <;> cases hc : c.hasYear <;>
      simp_all <;> omega⟩

instance : IsRefl UnknownFile rankLe :=
  ⟨fun a => by unfold rankLe; simp⟩

/-- One iteration of the status-partitioning loop of `autoSelectBestMCQ`
(normal mode): writes the status-derived selection and collects `unknown`
files with their ranking metadata. -/
def autoSelectStep (ctx : String → FileStatus) (metadata : String → Option (Bool × ℕ)) :
    List (String × Bool) × List UnknownFile → String → List (String × Bool) × List UnknownFile :=
  fun acc f =>
    match ctx f with
    | FileStatus.saved => (updateKey acc.1 f true, acc.2)
    | FileStatus.removed => (updateKey acc.1 f false, acc.2)
    | FileStatus.unknown =>
      let hasYear := ((metadata f).map Prod.fst).getD false
      let fileNum := ((metadata f).map Prod.snd).getD (fileNumOf f)
      (updateKey acc.1 f false, acc.2 ++ [⟨f, hasYear, fileNum⟩])

/-- The `unknownFiles` list collected by one normal-mode call of
`autoSelectBestMCQ` over `files`. -/
def unknownCandidatesOf (ctx : String → FileStatus) (metadata : String → Option (Bool × ℕ))
    (files : List String) : List UnknownFile :=
  (files.foldl (autoSelectStep ctx metadata) ([], [])).2

/-- `autoSelectBestMCQ(files, metadata, useCheckAllMode)`: in check-all mode
every file is selected unless `removed`; in normal mode `saved` files are
selected, `removed` files deselected, and of the `unknown` files exactly the
top-ranked one (stable sort by `rankLe`) is selected. -/
def autoSelectBestMCQ (ctx : String → FileStatus) (files : List String)
    (metadata : String → Option (Bool × ℕ)) (useCheckAllMode : Bool) : List (String × Bool) :=
  if useCheckAllMode then
    files.foldl (fun sels f => updateKey sels f (decide (ctx f ≠ FileStatus.removed))) []
  else
    let res := files.foldl (autoSelectStep ctx metadata) ([], [])
    match (res.2.insertionSort rankLe).head? with
    | none => res.1
    | some top => updateKey res.1 top.filename true

theorem head?_mem {α : Type} {l : List α} {a : α} (h : l.head? = some a) : a ∈ l := by
  cases l with
  | nil => exact Option.noConfusion h
  | cons x rest =>
    rw [List.head?_cons, Option.some_inj] at h
    exact h ▸ List.mem_cons_self _ _

theorem lookup_foldl_updateKey (v : String → Bool) (files : List String) (acc : List (String × Bool))
    (f : String) (hf : f ∈ files) :
    lookupKey (files.foldl (fun sels x => updateKey sels x (v x)) acc) f = some (v f) := by
  refine foldl_establishes _ (fun m => lookupKey m f = some (v f)) f ?_ ?_ files acc hf
  · intro s
    exact lookupKey_updateKey_self s f (v f)
  · intro s x hs
    by_cases hx : x = f
    · subst hx
      exact lookupKey_updateKey_self s x (v x)
    · rw [lookupKey_updateKey_ne s x f (v x) hx]
      exact hs

theorem autoSelectStep_fst (ctx : String → FileStatus) (metadata : String → Option (Bool × ℕ)) :
    ∀ (files : List String) (acc : List (String × Bool)) (u : List UnknownFile),
      (files.foldl (autoSelectStep ctx metadata) (acc, u)).1 =
        files.foldl (fun sels x => updateKey sels x (decide (ctx x = FileStatus.saved))) acc
  | [], _, _ => rfl
  | f :: rest, acc, u => by
    simp only [List.foldl_cons]
    cases h : ctx f with
    | saved =>
      simp only [autoSelectStep, h, autoSelectStep_fst ctx metadata rest]
      rfl
    | removed =>
      simp only [autoSelectStep, h, autoSelectStep_fst ctx metadata rest]
      rfl
    | unknown =>
      simp only [autoSelectStep, h, autoSelectStep_fst ctx metadata rest]
      rfl

theorem unknownCandidates_spec (ctx : String → FileStatus) (metadata : String → Option (Bool × ℕ)) :
    ∀ (files : List String) (acc : List (String × Bool)) (u0 : List UnknownFile) (x : UnknownFile),
      x ∈ (files.foldl (autoSelectStep ctx metadata) (acc, u0)).2 →
        x ∈ u0 ∨ (ctx x.filename = FileStatus.unknown ∧ x.filename ∈ files)
  | [], _, _, _, hx => Or.inl hx
  | f :: rest, acc, u0, x, hx => by
    simp only [List.foldl_cons] at hx
    cases h : ctx f with
    | saved =>
      simp only [autoSelectStep, h] at hx
      rcases unknownCandidates_spec ctx metadata rest _ _ x hx with h2 | h2
      · exact Or.inl h2
      · exact Or.inr ⟨h2.1, List.mem_cons_of_mem _ h2.2⟩
    | removed =>
      simp only [autoSelectStep, h] at hx
      rcases unknownCandidates_spec ctx metadata rest _ _ x hx with h2 | h2
      · exact Or.inl h2
      · exact Or.inr ⟨h2.1, List.mem_cons_of_mem _ h2.2⟩
    | unknown =>
      simp only [autoSelectStep, h] at hx
      rcases unknownCandidates_spec ctx metadata rest _ _ x hx with h2 | h2
      · rcases List.mem_append.mp h2 with h3 | h3
        · exact Or.inl h3
        · rcases List.mem_singleton.mp h3 with rfl
          exact Or.inr ⟨h, List.mem_cons_self _ _⟩
      · exact Or.inr ⟨h2.1, List.mem_cons_of_mem _ h2.2⟩

theorem mem_unknownCandidatesOf {ctx : String → FileStatus} {metadata : String → Option (Bool × ℕ)}
    {files : List String} {x : UnknownFile} (hx : x ∈ unknownCandidatesOf ctx metadata files) :
    ctx x.filename = FileStatus.unknown ∧ x.filename ∈ files := by
  rcases unknownCandidates_spec ctx metadata files [] [] x hx with h | h
  · exact absurd h (List.not_mem_nil _)
  · exact h

theorem autoSelect_lookup_status (ctx : String → FileStatus) (files : List String)
    (metadata : String → Option (Bool × ℕ)) (mode : Bool) (f : String) (hf : f ∈ files)
    (hnu : ctx f ≠ FileStatus.unknown) :
    lookupKey (autoSelectBestMCQ ctx files metadata mode) f
      = some (decide (ctx f ≠ FileStatus.removed)) := by
  unfold autoSelectBestMCQ
  cases mode with
  | true =>
    rw [if_pos rfl]
    exact lookup_foldl_updateKey _ files [] f hf
  | false =>
    rw [if_neg (by simp)]
    have hfst : (files.foldl (autoSelectStep ctx metadata) ([], [])).1 =
        files.foldl (fun sels x => updateKey sels x (decide (ctx x = FileStatus.saved))) [] :=
      autoSelectStep_fst ctx metadata files [] []
    have hval : decide (ctx f = FileStatus.saved) = decide (ctx f ≠ FileStatus.removed) := by
      cases h : ctx f with
      | saved => rfl
      | removed => rfl
      | unknown => exact absurd h hnu
    cases htop : (((files.foldl (autoSelectStep ctx metadata) ([], [])).2).insertionSort
        rankLe).head? with
    | none =>
      simp only [htop]
      rw [hfst, lookup_foldl_updateKey _ files [] f hf, hval]
    | some top =>
      simp only [htop]
      have htopmem : top ∈ unknownCandidatesOf ctx metadata files := by
        have := head?_mem htop
        rw [List.mem_insertionSort] at this
        exact this
      have htopun := (mem_unknownCandidatesOf htopmem).1
      have hne : top.filename ≠ f := by
        intro h
        rw [h] at htopun
        exact hnu htopun
      rw [lookupKey_updateKey_ne _ _ _ _ hne, hfst,
        lookup_foldl_updateKey _ files [] f hf, hval]

theorem autoSelectStep_congr (ctx ctx2 : String → FileStatus)
    (metadata metadata2 : String → Option (Bool × ℕ)) :
    ∀ (files : List String) (acc : List (String × Bool) × List UnknownFile),
      (∀ f ∈ files, ctx2 f = ctx f) → (∀ f ∈ files, metadata2 f = metadata f) →
      files.foldl (autoSelectStep ctx2 metadata2) acc = files.foldl (autoSelectStep ctx metadata) acc
  | [], _, _, _ => rfl
  | f :: rest, acc, hctx, hmeta => by
    simp only [List.foldl_cons]
    have hstep : autoSelectStep ctx2 metadata2 acc f = autoSelectStep ctx metadata acc f := by
      unfold autoSelectStep
      rw [hctx f (List.mem_cons_self _ _), hmeta f (List.mem_cons_self _ _)]
    rw [hstep]
    exact autoSelectStep_congr ctx ctx2 metadata metadata2 rest _
      (fun x hx => hctx x (List.mem_cons_of_mem _ hx))
      (fun x hx => hmeta x (List.mem_cons_of_mem _ hx))

/-- C4: in exhaustive mode, when the records resolved together in one call
are all of `unknown` status, exactly one of them is selected as keep: the
head of the stable ranking sort (`hasYear` descending, `fileNum` ascending),
which is ranked no worse than every other candidate; every other record of
the call is set to discard; and the outcome depends only on the statuses and
the `(hasYear, fileNum)` metadata of the records in the call (determinism). -/
theorem autoSelect_exhaustive_correct (ctx : String → FileStatus) (files : List String)
    (metadata : String → Option (Bool × ℕ)) (top : UnknownFile)
    (hall : ∀ f ∈ files, ctx f = FileStatus.unknown)
    (htop : ((unknownCandidatesOf ctx metadata files).insertionSort rankLe).head? = some top) :
    lookupKey (autoSelectBestMCQ ctx files metadata false) top.filename = some true ∧
    (∀ f ∈ files, f ≠ top.filename →
      lookupKey (autoSelectBestMCQ ctx files metadata false) f = some false) ∧
    top ∈ unknownCandidatesOf ctx metadata files ∧
    (∀ u ∈ unknownCandidatesOf ctx metadata files, rankLe top u) ∧
    (∀ (ctx2 : String → FileStatus) (metadata2 : String → Option (Bool × ℕ)),
      (∀ f ∈ files, ctx2 f = ctx f) → (∀ f ∈ files, metadata2 f = metadata f) →
      autoSelectBestMCQ ctx2 files metadata2 false = autoSelectBestMCQ ctx files metadata false) := by
  have hfst : (files.foldl (autoSelectStep ctx metadata) ([], [])).1 =
      files.foldl (fun sels x => updateKey sels x (decide (ctx x = FileStatus.saved))) [] :=
    autoSelectStep_fst ctx metadata files [] []
  have hshape : autoSelectBestMCQ ctx files metadata false =
      updateKey (files.foldl (autoSelectStep ctx metadata) ([], [])).1 top.filename true := by
    unfold autoSelectBestMCQ
    rw [if_neg (by simp)]
    have : (((files.foldl (autoSelectStep ctx metadata) ([], [])).2).insertionSort
        rankLe).head? = some top := htop
    simp only [this]
  refine ⟨?_, ?_, ?_, ?_, ?_⟩
  · rw [hshape]
    exact lookupKey_updateKey_self _ _ _
  · intro f hf hne
    rw [hshape, lookupKey_updateKey_ne _ _ _ _ (fun h => hne h.symm), hfst,
      lookup_foldl_updateKey _ files [] f hf]
    rw [hall f hf]
    rfl
  · have := head?_mem htop
    rw [List.mem_insertionSort] at this
    exact this
  · intro u hu
    have hsorted : ((unknownCandidatesOf ctx metadata files).insertionSort rankLe).Sorted rankLe :=
      List.sorted_insertionSort rankLe _
    have humem : u ∈ (unknownCandidatesOf ctx metadata files).insertionSort rankLe := by
      rw [List.mem_insertionSort]
      exact hu
    cases hl : (unknownCandidatesOf ctx metadata files).insertionSort rankLe with
    | nil =>
      rw [hl] at humem
      exact absurd humem (List.not_mem_nil _)
    | cons a rest =>
      rw [hl, List.head?_cons, Option.some_inj] at htop
      subst htop
      rw [hl] at humem hsorted
      rw [List.sorted_cons] at hsorted
      rcases List.mem_cons.mp humem with rfl | hurest
      · exact refl_of rankLe u
      · exact hsorted.1 u hurest
  · intro ctx2 metadata2 hctx hmeta
    unfold autoSelectBestMCQ
    rw [if_neg (by simp), if_neg (by simp)]
    rw [autoSelectStep_congr ctx ctx2 metadata metadata2 files ([], []) hctx hmeta]

/-- C4 witness: three records, all `unknown`; q7 has a year (rank key wins),
so it alone is kept and q12, q3 are discarded. -/
theorem autoSelect_exhaustive_correct_witness :
    ((∀ f ∈ ["q12", "q7", "q3"], (fun _ => FileStatus.unknown) f = FileStatus.unknown) ∧
      ((unknownCandidatesOf (fun _ => FileStatus.unknown)
          (fun f => if f = "q7" then some (true, 7) else none)
          ["q12", "q7", "q3"]).insertionSort rankLe).head? = some ⟨"q7", true, 7⟩) ∧
    lookupKey (autoSelectBestMCQ (fun _ => FileStatus.unknown) ["q12", "q7", "q3"]
        (fun f => if f = "q7" then some (true, 7) else none) false) "q7" = some true ∧
    lookupKey (autoSelectBestMCQ (fun _ => FileStatus.unknown) ["q12", "q7", "q3"]
        (fun f => if f = "q7" then some (true, 7) else none) false) "q12" = some false :=
  ⟨⟨by decide, by decide⟩,
    (autoSelect_exhaustive_correct (fun _ => FileStatus.unknown) ["q12", "q7", "q3"]
      (fun f => if f = "q7" then some (true, 7) else none) ⟨"q7", true, 7⟩
      (by decide) (by decide)).1,
    (autoSelect_exhaustive_correct (fun _ => FileStatus.unknown) ["q12", "q7", "q3"]
      (fun f => if f = "q7" then some (true, 7) else none) ⟨"q7", true, 7⟩
      (by decide) (by decide)).2.1 "q12" (by decide) (by decide)⟩

/-! ### The selection-recompute effect (mode change / status refresh) -/

/-- Body of the per-file merge loop of the recompute effect: status-derived
values (`saved`/`removed`) always overwrite, `unknown` values are only
filled in when the file has no selection yet. -/
def recomputeStep (ctx : String → FileStatus) (groupSelections : List (String × Bool)) :
    List (String × Bool) → String → List (String × Bool) :=
  fun merged f =>
    let newSelection := (lookupKey groupSelections f).getD false
    if ctx f = FileStatus.saved ∨ ctx f = FileStatus.removed then updateKey merged f newSelection
    else if (lookupKey merged f).isNone then updateKey merged f newSelection
    else merged

/-- One group's pass of the selection-recompute effect (also the body of the
auto-selection pass of `initializeGroups`): skip user-modified files, run
`autoSelectBestMCQ` on the rest and merge into the existing selections. -/
def recomputeGroupSelections (ctx : String → FileStatus) (metadata : String → Option (Bool × ℕ))
    (checkAllMode : Bool) (userModified : List String) (groups : List Group)
    (prev : ℕ → List (String × Bool)) (groupIndex : ℕ) : List (String × Bool) :=
  let groupFiles := filesOf groups groupIndex
  let filesForAutoSelect := groupFiles.filter (fun x => decide (x ∉ userModified))
  if filesForAutoSelect.isEmpty then prev groupIndex
  else
    let groupSelections := autoSelectBestMCQ ctx filesForAutoSelect metadata checkAllMode
    filesForAutoSelect.foldl (recomputeStep ctx groupSelections) (prev groupIndex)

theorem recompute_lookup_status (ctx : String → FileStatus) (metadata : String → Option (Bool × ℕ))
    (mode : Bool) (userModified : List String) (groups : List Group)
    (prev : ℕ → List (String × Bool)) (gi : ℕ) (f : String)
    (hnm : f ∉ userModified) (hfg : f ∈ filesOf groups gi) (hnu : ctx f ≠ FileStatus.unknown) :
    lookupKey (recomputeGroupSelections ctx metadata mode userModified groups prev gi) f
      = some (decide (ctx f ≠ FileStatus.removed)) := by
  have hmemfa : f ∈ (filesOf groups gi).filter (fun x => decide (x ∉ userModified)) :=
    List.mem_filter.mpr ⟨hfg, by simp [hnm]⟩
  unfold recomputeGroupSelections
  rw [if_neg (by
    intro h
    rw [List.isEmpty_iff] at h
    rw [h] at hmemfa
    exact List.not_mem_nil _ hmemfa)]
  have hsel : lookupKey (autoSelectBestMCQ ctx
      ((filesOf groups gi).filter (fun x => decide (x ∉ userModified))) metadata mode) f
      = some (decide (ctx f ≠ FileStatus.removed)) :=
    autoSelect_lookup_status ctx _ metadata mode f hmemfa hnu
  refine foldl_establishes _ (fun m => lookupKey m f = some (decide (ctx f ≠ FileStatus.removed)))
    f ?_ ?_ _ _ hmemfa
  · intro s
    unfold recomputeStep
    have hsr : ctx f = FileStatus.saved ∨ ctx f = FileStatus.removed := by
      cases h : ctx f with
      | saved => exact Or.inl rfl
      | removed => exact Or.inr rfl
      | unknown => exact absurd h hnu
    rw [if_pos hsr, hsel]
    exact lookupKey_updateKey_self _ _ _
  · intro s x hs
    by_cases hx : x = f
    · subst hx
      unfold recomputeStep
      have hsr : ctx x = FileStatus.saved ∨ ctx x = FileStatus.removed := by
        cases h : ctx x with
        | saved => exact Or.inl rfl
        | removed => exact Or.inr rfl
        | unknown => exact absurd h hnu
      rw [if_pos hsr, hsel]
      exact lookupKey_updateKey_self _ _ _
    · unfold recomputeStep
      split_ifs with h1 h2
      · rw [lookupKey_updateKey_ne _ _ _ _ hx]
        exact hs
      · rw [lookupKey_updateKey_ne _ _ _ _ hx]
        exact hs
      · exact hs

/-- C3: after a selection recompute (mode toggle or status refresh), in either
heuristic mode, every non-user-modified record of the group with
authoritative status `saved` is selected and every one with status `removed`
is deselected. -/
theorem statusAuthority_correct (ctx : String → FileStatus) (metadata : String → Option (Bool × ℕ))
    (mode : Bool) (userModified : List String) (groups : List Group)
    (prev : ℕ → List (String × Bool)) (gi : ℕ) (f : String)
    (hnm : f ∉ userModified) (hfg : f ∈ filesOf groups gi) :
    (ctx f = FileStatus.saved →
      lookupKey (recomputeGroupSelections ctx metadata mode userModified groups prev gi) f
        = some true) ∧
    (ctx f = FileStatus.removed →
      lookupKey (recomputeGroupSelections ctx metadata mode userModified groups prev gi) f
        = some false) := by
  constructor
  · intro hs
    have := recompute_lookup_status ctx metadata mode userModified groups prev gi f hnm hfg
      (by rw [hs]; intro h; exact FileStatus.noConfusion h)
    rw [hs] at this
    exact this
  · intro hs
    have := recompute_lookup_status ctx metadata mode userModified groups prev gi f hnm hfg
      (by rw [hs]; intro h; exact FileStatus.noConfusion h)
    rw [hs] at this
    exact this

/-- Status oracle for the C3 witness: `qa` saved, `qb` removed, rest unknown. -/
def wCtx : String → FileStatus :=
  fun f => if f = "qa" then FileStatus.saved
    else if f = "qb" then FileStatus.removed else FileStatus.unknown

/-- Single group containing a saved, a removed and an unknown record. -/
def wStatusGroups : List Group := [⟨["qa", "qb", "qc"], ⟨1, 1, by decide, by decide⟩, []⟩]

/-- C3 witness: in exhaustive mode with no user overrides, the recompute pass
selects the saved record `qa` and deselects the removed record `qb`. -/
theorem statusAuthority_correct_witness :
    ("qa" ∉ ([] : List String) ∧ "qa" ∈ filesOf wStatusGroups 0 ∧ wCtx "qa" = FileStatus.saved ∧
      "qb" ∈ filesOf wStatusGroups 0 ∧ wCtx "qb" = FileStatus.removed) ∧
    lookupKey (recomputeGroupSelections wCtx (fun _ => none) false [] wStatusGroups
        (fun _ => []) 0) "qa" = some true ∧
    lookupKey (recomputeGroupSelections wCtx (fun _ => none) false [] wStatusGroups
        (fun _ => []) 0) "qb" = some false :=
  ⟨⟨by decide, by decide, by decide, by decide, by decide⟩,
    (statusAuthority_correct wCtx (fun _ => none) false [] wStatusGroups (fun _ => []) 0 "qa"
      (by decide) (by decide)).1 (by decide),
    (statusAuthority_correct wCtx (fun _ => none) false [] wStatusGroups (fun _ => []) 0 "qb"
      (by decide) (by decide)).2 (by decide)⟩

/-! ### `storage` (lib/storage.ts): one localStorage key `STORAGE_KEY` -/

/-- The persisted `SessionState` shape of `lib/storage.ts` (content and
removal-history caches are elided; they are not read by the operations
verified here). -/
structure SessionState where
  subject : String
  currentGroupIndex : ℕ
  completedGroups : List ℕ
  checkedFiles : List (String × Bool)
  similarityRangeStart : Option ℤ := none
  similarityRangeEnd : Option ℤ := none
  targetGroupsPerPage : Option ℕ := none
  isManualRange : Option Bool := none
  lastUpdated : ℕ
deriving DecidableEq

namespace storage

/-- `saveSession`: overwrite the single `STORAGE_KEY` slot wholesale,
stamping `lastUpdated = Date.now()` (`now` is passed explicitly). -/
def saveSession (state : SessionState) (now : ℕ) (_store : Option SessionState) :
    Option SessionState :=
  some { state with lastUpdated := now }

/-- `loadSession(subject)`: read the single slot, returning it only when its
`subject` matches. -/
def loadSession (subject : String) (store : Option SessionState) : Option SessionState :=
  match store with
  | none => none
  | some s => if s.subject = subject then some s else none

/-- `updateCheckedFiles(subject, filename, checked)`: load, set the per-file
flag, save; a missing session for the subject makes this a no-op. -/
def updateCheckedFiles (subject filename : String) (checked : Bool) (now : ℕ)
    (store : Option SessionState) : Option SessionState :=
  match loadSession subject store with
  | none => store
  | some s =>
    saveSession { s with checkedFiles := updateKey s.checkedFiles filename checked } now store

end storage

theorem loadSession_subject {subject : String} {store : Option SessionState} {s : SessionState}
    (h : storage.loadSession subject store = some s) : s.subject = subject := by
  unfold storage.loadSession at h
  cases store with
  | none => exact Option.noConfusion h
  | some s0 =>
    by_cases hs : s0.subject = subject
    · simp only [if_pos hs, Option.some_inj] at h
      rw [← h]
      exact hs
    · simp only [if_neg hs] at h
      exact Option.noConfusion h

/-! ### `handleFileToggleAll` (user toggle with cross-group propagation) -/

/-- `userModifiedFilesRef.current.add(filename)` (a JS `Set` keeps insertion
order and ignores duplicates). -/
def addUserModified (userModified : List String) (filename : String) : List String :=
  if filename ∈ userModified then userModified else userModified ++ [filename]

/-- The state update of `handleFileToggleAll(filename, checked)`: for every
group of the current page whose files include `filename`, set that group's
selection for `filename` to `checked`. -/
def handleFileToggleAllSelections (groups : List Group) (rangeStart rangeEnd : ℤ)
    (prev : ℕ → List (String × Bool)) (filename : String) (checked : Bool) :
    ℕ → List (String × Bool) :=
  (getGroupsForCurrentPage groups rangeStart rangeEnd).foldl
    (fun updated gi =>
      if filename ∈ filesOf groups gi then
        Function.update updated gi (updateKey (updated gi) filename checked)
      else updated)
    prev

theorem foldl_preserves_mem {σ α : Type} (step : σ → α → σ) (P : σ → Prop) :
    ∀ (l : List α), (∀ s x, x ∈ l → P s → P (step s x)) → ∀ (s : σ), P s → P (l.foldl step s)
  | [], _, _, hs => hs
  | x :: rest, hpres, s, hs =>
    foldl_preserves_mem step P rest
      (fun s2 y hy => hpres s2 y (List.mem_cons_of_mem _ hy))
      (step s x) (hpres s x (List.mem_cons_self _ _) hs)

theorem recompute_preserves_userModified (ctx : String → FileStatus)
    (metadata : String → Option (Bool × ℕ)) (mode : Bool) (userModified : List String)
    (groups : List Group) (prev : ℕ → List (String × Bool)) (gi : ℕ) (f : String)
    (hm : f ∈ userModified) :
    lookupKey (recomputeGroupSelections ctx metadata mode userModified groups prev gi) f
      = lookupKey (prev gi) f := by
  unfold recomputeGroupSelections
  by_cases he : ((filesOf groups gi).filter (fun x => decide (x ∉ userModified))).isEmpty = true
  · rw [if_pos he]
  · rw [if_neg he]
    refine foldl_preserves_mem _ (fun m => lookupKey m f = lookupKey (prev gi) f) _ ?_ _ rfl
    intro s x hx hs
    have hxne : x ≠ f := by
      intro h
      subst h
      have := (List.mem_filter.mp hx).2
      simp only [decide_eq_true_eq] at this
      exact this hm
    unfold recomputeStep
    split_ifs with h1 h2
    · rw [lookupKey_updateKey_ne _ _ _ _ hxne]
      exact hs
    · rw [lookupKey_updateKey_ne _ _ _ _ hxne]
      exact hs
    · exact hs

/-- C5: after `handleFileToggleAll(filename, checked)`, (a) the record's
selection equals `checked` in every group of the current page containing it;
(b) the record is marked user-modified; (c) a subsequent selection recompute
(in either mode) leaves its selection in every group unchanged; and (d) the
override is persisted to the stored session of the subject (when one is
stored). -/
theorem handleFileToggleAll_correct (groups : List Group) (rangeStart rangeEnd : ℤ)
    (prev : ℕ → List (String × Bool)) (filename : String) (checked : Bool)
    (userModified : List String) (ctx : String → FileStatus)
    (metadata : String → Option (Bool × ℕ)) (mode : Bool) (gi : ℕ)
    (subject : String) (now : ℕ) (store : Option SessionState) (s : SessionState) :
    (gi ∈ getGroupsForCurrentPage groups rangeStart rangeEnd →
      filename ∈ filesOf groups gi →
      lookupKey (handleFileToggleAllSelections groups rangeStart rangeEnd prev filename checked gi)
        filename = some checked) ∧
    filename ∈ addUserModified userModified filename ∧
    lookupKey (recomputeGroupSelections ctx metadata mode (addUserModified userModified filename)
        groups (handleFileToggleAllSelections groups rangeStart rangeEnd prev filename checked) gi)
        filename
      = lookupKey (handleFileToggleAllSelections groups rangeStart rangeEnd prev filename checked gi)
          filename ∧
    (storage.loadSession subject store = some s →
      ∃ s2, storage.loadSession subject
          (storage.updateCheckedFiles subject filename checked now store) = some s2 ∧
        lookupKey s2.checkedFiles filename = some checked) := by
  refine ⟨?_, ?_, ?_, ?_⟩
  · intro hgi hfg
    unfold handleFileToggleAllSelections
    refine foldl_establishes _
      (fun (st : ℕ → List (String × Bool)) => lookupKey (st gi) filename = some checked)
      gi ?_ ?_ _ _ hgi
    · intro st
      rw [if_pos hfg, Function.update_same]
      exact lookupKey_updateKey_self _ _ _
    · intro st x hst
      by_cases hx : x = gi
      · subst hx
        rw [if_pos hfg, Function.update_same]
        exact lookupKey_updateKey_self _ _ _
      · split_ifs with h1
        · rw [Function.update_noteq (fun h => hx h.symm)]
          exact hst
        · exact hst
  · unfold addUserModified
    split_ifs with h
    · exact h
    · exact List.mem_append.mpr (Or.inr (List.mem_singleton.mpr rfl))
  · exact recompute_preserves_userModified ctx metadata mode _ groups _ gi filename
      (by
        unfold addUserModified
        split_ifs with h
        · exact h
        · exact List.mem_append.mpr (Or.inr (List.mem_singleton.mpr rfl)))
  · intro hload
    have hsub : s.subject = subject := loadSession_subject hload
    have hupd : storage.updateCheckedFiles subject filename checked now store =
        some { s with
          checkedFiles := updateKey s.checkedFiles filename checked
          lastUpdated := now } := by
      unfold storage.updateCheckedFiles
      rw [hload]
      rfl
    refine ⟨{ s with
      checkedFiles := updateKey s.checkedFiles filename checked
      lastUpdated := now }, ?_, lookupKey_updateKey_self s.checkedFiles filename checked⟩
    rw [hupd]
    simp [storage.loadSession, hsub]

/-- Stored session for subject `anatomy`. -/
def wSessionA : SessionState := ⟨"anatomy", 0, [], [], none, none, none, none, 0⟩

/-- Stored session for subject `botany`. -/
def wSessionB : SessionState := ⟨"botany", 0, [], [], none, none, none, none, 0⟩

/-- C5 witness: with a one-group page containing `qa`, toggling `qa` off
makes its selection `false` in that group, and the override is persisted to
the stored session. -/
theorem handleFileToggleAll_correct_witness :
    (0 ∈ getGroupsForCurrentPage wStatusGroups 1000 999 ∧ "qa" ∈ filesOf wStatusGroups 0 ∧
      storage.loadSession "anatomy" (some wSessionA) = some wSessionA) ∧
    lookupKey (handleFileToggleAllSelections wStatusGroups 1000 999 (fun _ => []) "qa" false 0)
        "qa" = some false ∧
    (∃ s2, storage.loadSession "anatomy"
        (storage.updateCheckedFiles "anatomy" "qa" false 7 (some wSessionA)) = some s2 ∧
      lookupKey s2.checkedFiles "qa" = some false) :=
  ⟨⟨by decide, by decide, by decide⟩,
    (handleFileToggleAll_correct wStatusGroups 1000 999 (fun _ => []) "qa" false [] wCtx
      (fun _ => none) false 0 "anatomy" 7 (some wSessionA) wSessionA).1 (by decide) (by decide),
    (handleFileToggleAll_correct wStatusGroups 1000 999 (fun _ => []) "qa" false [] wCtx
      (fun _ => none) false 0 "anatomy" 7 (some wSessionA) wSessionA).2.2.2 (by decide)⟩

/-- C7 counterexample: the store is a single `localStorage` slot, so saving
subject `botany` wholesale overwrites subject `anatomy`'s saved session:
loading `anatomy` afterwards yields `none` (absent), not the session
previously saved for `anatomy`. -/
theorem sessionIsolation_counterexample :
    storage.loadSession "anatomy" (storage.saveSession wSessionA 1 none)
        = some { wSessionA with lastUpdated := 1 } ∧
    storage.loadSession "anatomy"
        (storage.saveSession wSessionB 2 (storage.saveSession wSessionA 1 none)) = none := by
  constructor
  · decide
  · decide

/-- C7 (amended): the store keeps one record in total, not one per subject.
Saving subject B's session replaces subject A's; afterwards loading A yields
absent while loading B yields B's session (stamped with the save time). -/
theorem sessionIsolation_amended (sA sB : SessionState) (t1 t2 : ℕ)
    (store : Option SessionState) (hne : sA.subject ≠ sB.subject) :
    storage.loadSession sA.subject
        (storage.saveSession sB t2 (storage.saveSession sA t1 store)) = none ∧
    storage.loadSession sB.subject
        (storage.saveSession sB t2 (storage.saveSession sA t1 store))
      = some { sB with lastUpdated := t2 } := by
  constructor
  · simp [storage.saveSession, storage.loadSession, Ne.symm hne]
  · simp [storage.saveSession, storage.loadSession]

/-- C7 (amended) witness: concrete sessions for `anatomy` and `botany`. -/
theorem sessionIsolation_amended_witness :
    wSessionA.subject ≠ wSessionB.subject ∧
    storage.loadSession wSessionA.subject
        (storage.saveSession wSessionB 2 (storage.saveSession wSessionA 1 none)) = none :=
  ⟨by decide, (sessionIsolation_amended wSessionA wSessionB 1 2 none (by decide)).1⟩

/-! ### `handleConfirmSubmitAll`: final states and per-group submission -/

theorem lookupKey_updateKey {β : Type} (m : List (String × β)) (k : String) (v : β) (f : String) :
    lookupKey (updateKey m k v) f = if k = f then some v else lookupKey m f := by
  by_cases h : k = f
  · subst h
    rw [if_pos rfl]
    exact lookupKey_updateKey_self m k v
  · rw [if_neg h]
    exact lookupKey_updateKey_ne m k f v h

theorem lookupKey_append_single {β : Type} :
    ∀ (m : List (String × β)) (k : String) (v : β) (f : String),
      lookupKey (m ++ [(k, v)]) f =
        match lookupKey m f with
        | some b => some b
        | none => if k = f then some v else none
  | [], k, v, f => by simp [lookupKey]
  | (k0, v0) :: rest, k, v, f => by
    simp only [List.cons_append, lookupKey]
    by_cases h : k0 = f
    · simp [h]
    · simp only [if_neg h]
      exact lookupKey_append_single rest k v f

/-- First pass of `handleConfirmSubmitAll`: initialise every file appearing
on the page to `false`. -/
def filePageInit (groups : List Group) (page : List ℕ) : List (String × Bool) :=
  page.foldl
    (fun m gi => (filesOf groups gi).foldl
      (fun m2 f => if (lookupKey m2 f).isSome then m2 else m2 ++ [(f, false)]) m)
    []

/-- Second pass of `handleConfirmSubmitAll`: set a file to `true` as soon as
some page group has it checked (`selections[filename] ?? false`). -/
def fileFinalStates (groups : List Group) (page : List ℕ)
    (sels : ℕ → List (String × Bool)) : List (String × Bool) :=
  page.foldl
    (fun m gi => (filesOf groups gi).foldl
      (fun m2 f => if (lookupKey (sels gi) f).getD false then updateKey m2 f true else m2) m)
    (filePageInit groups page)

/-- `processGroup`: the `checkedFiles` array submitted for one group holds
exactly the group members whose final state is `true`. -/
def processGroupCheckedFiles (groups : List Group) (finalStates : List (String × Bool))
    (groupIndex : ℕ) : List String :=
  (filesOf groups groupIndex).filter (fun f => (lookupKey finalStates f).getD false)

theorem filePageInit_no_true (groups : List Group) (page : List ℕ) (f : String) :
    lookupKey (filePageInit groups page) f ≠ some true := by
  unfold filePageInit
  refine foldl_preserves _ (fun m => ∀ f2, lookupKey m f2 ≠ some true) ?_ page []
    (by intro f2; simp [lookupKey]) f
  intro m gi hm
  refine foldl_preserves _ (fun m2 => ∀ f2, lookupKey m2 f2 ≠ some true) ?_ _ m hm
  intro m2 x hm2 f2
  by_cases hx : (lookupKey m2 x).isSome = true
  · rw [if_pos hx]
    exact hm2 f2
  · rw [if_neg hx, lookupKey_append_single]
    cases h : lookupKey m2 f2 with
    | some b =>
      simp only [h]
      exact fun hb => hm2 f2 (h.trans hb)
    | none =>
      simp only [h]
      by_cases hxf : x = f2
      · simp [hxf]
      · simp [hxf]

theorem pass2_inner_lookup (checkedVal : String → Bool) :
    ∀ (fs : List String) (m : List (String × Bool)) (f : String),
      lookupKey (fs.foldl (fun m2 x => if checkedVal x then updateKey m2 x true else m2) m) f
          = some true ↔
        lookupKey m f = some true ∨ (f ∈ fs ∧ checkedVal f = true)
  | [], m, f => by simp
  | x :: rest, m, f => by
    simp only [List.foldl_cons]
    rw [pass2_inner_lookup checkedVal rest _ f]
    by_cases hcv : checkedVal x = true
    · rw [if_pos hcv, lookupKey_updateKey]
      by_cases hx : x = f
      · subst hx
        simp [hcv]
      · simp only [if_neg hx, List.mem_cons]
        constructor
        · rintro (h | h)
          · exact Or.inl h
          · exact Or.inr ⟨Or.inr h.1, h.2⟩
        · rintro (h | ⟨hmem, hv⟩)
          · exact Or.inl h
          · rcases hmem with rfl | hmem
            · exact absurd rfl hx
            · exact Or.inr ⟨hmem, hv⟩
    · rw [if_neg hcv]
      simp only [List.mem_cons]
      constructor
      · rintro (h | h)
        · exact Or.inl h
        · exact Or.inr ⟨Or.inr h.1, h.2⟩
      · rintro (h | ⟨hmem, hv⟩)
        · exact Or.inl h
        · rcases hmem with rfl | hmem
          · exact absurd hv hcv
          · exact Or.inr ⟨hmem, hv⟩

theorem pass2_outer_lookup (groups : List Group) (sels : ℕ → List (String × Bool)) :
    ∀ (page : List ℕ) (m : List (String × Bool)) (f : String),
      lookupKey (page.foldl
          (fun m2 gi => (filesOf groups gi).foldl
            (fun m3 x => if (lookupKey (sels gi) x).getD false then updateKey m3 x true else m3)
            m2) m) f
          = some true ↔
        lookupKey m f = some true ∨
          ∃ gi, gi ∈ page ∧ f ∈ filesOf groups gi ∧ (lookupKey (sels gi) f).getD false = true
  | [], m, f => by simp
  | gi :: rest, m, f => by
    simp only [List.foldl_cons]
    rw [pass2_outer_lookup groups sels rest _ f,
      pass2_inner_lookup (fun x => (lookupKey (sels gi) x).getD false) (filesOf groups gi) m f]
    constructor
    · rintro ((h | h) | ⟨gj, hgj, hmem, hv⟩)
      · exact Or.inl h
      · exact Or.inr ⟨gi, List.mem_cons_self _ _, h.1, h.2⟩
      · exact Or.inr ⟨gj, List.mem_cons_of_mem _ hgj, hmem, hv⟩
    · rintro (h | ⟨gj, hgj, hmem, hv⟩)
      · exact Or.inl (Or.inl h)
      · rcases List.mem_cons.mp hgj with rfl | hgj2
        · exact Or.inl (Or.inr ⟨hmem, hv⟩)
        · exact Or.inr ⟨gj, hgj2, hmem, hv⟩

/-- C2: a record's final state is `true` iff its selection is `true` in at
least one page group containing it, and each group is submitted with exactly
its members whose final state is `true` (so a record checked in zero groups
is never reported kept, and one checked in at least one group is never
reported discarded). -/
theorem submitFinalStates_correct (groups : List Group) (page : List ℕ)
    (sels : ℕ → List (String × Bool)) (f : String) (gi : ℕ) :
    (lookupKey (fileFinalStates groups page sels) f = some true ↔
      ∃ gj, gj ∈ page ∧ f ∈ filesOf groups gj ∧ (lookupKey (sels gj) f).getD false = true) ∧
    (f ∈ processGroupCheckedFiles groups (fileFinalStates groups page sels) gi ↔
      f ∈ filesOf groups gi ∧ lookupKey (fileFinalStates groups page sels) f = some true) := by
  have hmain : lookupKey (fileFinalStates groups page sels) f = some true ↔
      ∃ gj, gj ∈ page ∧ f ∈ filesOf groups gj ∧ (lookupKey (sels gj) f).getD false = true := by
    unfold fileFinalStates
    rw [pass2_outer_lookup groups sels page (filePageInit groups page) f]
    constructor
    · rintro (h | h)
      · exact absurd h (filePageInit_no_true groups page f)
      · exact h
    · intro h
      exact Or.inr h
  refine ⟨hmain, ?_⟩
  unfold processGroupCheckedFiles
  rw [List.mem_filter]
  constructor
  · rintro ⟨hmem, hval⟩
    refine ⟨hmem, ?_⟩
    have hval2 : (lookupKey (fileFinalStates groups page sels) f).getD false = true := hval
    cases h : lookupKey (fileFinalStates groups page sels) f with
    | none =>
      rw [h] at hval2
      exact absurd hval2 (by simp)
    | some b =>
      rw [h] at hval2
      simp only [Option.getD_some] at hval2
      rw [hval2]
  · rintro ⟨hmem, hval⟩
    refine ⟨hmem, ?_⟩
    show (lookupKey (fileFinalStates groups page sels) f).getD false = true
    rw [hval]
    rfl

/-! ### `allGroupsHaveAutoSelections` (`isPageReadyForSubmit`) -/

/-- Per-group readiness check of `allGroupsHaveAutoSelections`: a missing or
empty selections object fails; otherwise every file of the group (when the
group index resolves) must have an entry. -/
def groupHasSelections (groups : List Group) (sels : ℕ → Option (List (String × Bool)))
    (gi : ℕ) : Bool :=
  match sels gi with
  | none => false
  | some m =>
    if m.isEmpty then false
    else
      match groups[gi]? with
      | none => true
      | some grp => grp.files.all (fun f => (lookupKey m f).isSome)

/-- `allGroupsHaveAutoSelections()`: false for an empty page, otherwise every
page group must pass `groupHasSelections`. -/
def allGroupsHaveAutoSelections (groups : List Group)
    (sels : ℕ → Option (List (String × Bool))) (rangeStart rangeEnd : ℤ) : Bool :=
  let groupsInPage := getGroupsForCurrentPage groups rangeStart rangeEnd
  if groupsInPage.isEmpty then false
  else groupsInPage.all (groupHasSelections groups sels)

theorem groupHasSelections_iff (groups : List Group) (sels : ℕ → Option (List (String × Bool)))
    (gi : ℕ) :
    groupHasSelections groups sels gi = true ↔
      ∃ m, sels gi = some m ∧ m ≠ [] ∧
        ∀ f ∈ filesOf groups gi, (lookupKey m f).isSome = true := by
  unfold groupHasSelections
  cases hs : sels gi with
  | none => simp
  | some m =>
    simp only [Option.some_inj]
    by_cases hme : m.isEmpty = true
    · rw [if_pos hme]
      rw [List.isEmpty_iff] at hme
      subst hme
      simp
    · rw [if_neg hme]
      have hmne : m ≠ [] := by
        intro h
        rw [h] at hme
        exact hme rfl
      cases hg : groups[gi]? with
      | none =>
        have hfe : filesOf groups gi = [] := by
          unfold filesOf
          rw [hg]
          rfl
        simp [hfe, hmne]
      | some grp =>
        have hfe : filesOf groups gi = grp.files := by
          unfold filesOf
          rw [hg]
          rfl
        rw [List.all_eq_true]
        constructor
        · intro h
          refine ⟨m, rfl, hmne, ?_⟩
          rw [hfe]
          intro f hf
          simpa using h f hf
        · rintro ⟨m2, hm2, _, hall⟩
          subst hm2
          intro f hf
          exact hall f (hfe ▸ hf)

/-- C9 counterexample: for a page with zero groups the universally
quantified readiness condition ("every record in every group on the page has
an explicit entry") holds vacuously, yet `allGroupsHaveAutoSelections`
returns `false` — so readiness does not equal the condition for every page. -/
theorem pageReady_counterexample :
    getGroupsForCurrentPage ([] : List Group) 1000 999 = [] ∧
    allGroupsHaveAutoSelections [] (fun _ => none) 1000 999 = false := by
  constructor
  · rfl
  · rfl

/-- C9 (amended): `allGroupsHaveAutoSelections` returns true iff the current
page is nonempty and every group on it has a selections entry that is a
nonempty map covering every record of the group. -/
theorem pageReady_amended (groups : List Group) (sels : ℕ → Option (List (String × Bool)))
    (rangeStart rangeEnd : ℤ) :
    allGroupsHaveAutoSelections groups sels rangeStart rangeEnd = true ↔
      (getGroupsForCurrentPage groups rangeStart rangeEnd ≠ [] ∧
        ∀ gi ∈ getGroupsForCurrentPage groups rangeStart rangeEnd,
          ∃ m, sels gi = some m ∧ m ≠ [] ∧
            ∀ f ∈ filesOf groups gi, (lookupKey m f).isSome = true) := by
  unfold allGroupsHaveAutoSelections
  by_cases hpe : (getGroupsForCurrentPage groups rangeStart rangeEnd).isEmpty = true
  · rw [if_pos hpe]
    rw [List.isEmpty_iff] at hpe
    simp [hpe]
  · rw [if_neg hpe]
    have hne : getGroupsForCurrentPage groups rangeStart rangeEnd ≠ [] := by
      intro h
      rw [h] at hpe
      exact hpe rfl
    rw [List.all_eq_true]
    constructor
    · intro h
      exact ⟨hne, fun gi hgi => (groupHasSelections_iff groups sels gi).mp (h gi hgi)⟩
    · rintro ⟨h1, h2⟩
      intro gi hgi
      exact (groupHasSelections_iff groups sels gi).mpr (h2 gi hgi)

/-! ### `reorderGroupsByFileAppearances` (display reordering) -/

/-- `addGroup` helper of the reorder pass: push the index unless already
placed (the JS `placedGroups` set is the membership of the accumulated
list). -/
def addGroup (reordered : List ℕ) (gi : ℕ) : List ℕ :=
  if gi ∈ reordered then reordered else reordered ++ [gi]

/-- The `fileToGroups` map of the reorder pass, viewed per filename: the page
group indices containing the file, in page order, without duplicates. -/
def fileToGroupsFor (groups : List Group) (groupIndices : List ℕ) (filename : String) : List ℕ :=
  groupIndices.foldl
    (fun acc gi => if filename ∈ filesOf groups gi then addGroup acc gi else acc) []

/-- The related groups pulled forward after a group with multi-appearance
files: collected over those files in order (a JS `Set`, insertion order),
skipping the current group and already-placed groups, then sorted by
original page position (`groupIndices.indexOf`). -/
def relatedGroupsFor (groups : List Group) (groupIndices : List ℕ) (placed : List ℕ)
    (gi : ℕ) (multiFiles : List String) : List ℕ :=
  (multiFiles.foldl
    (fun acc f => (fileToGroupsFor groups groupIndices f).foldl
      (fun acc2 r => if r ≠ gi ∧ r ∉ placed then addGroup acc2 r else acc2) acc) []).insertionSort
    (fun a b => groupIndices.indexOf a ≤ groupIndices.indexOf b)

/-- One iteration of the main reorder loop. -/
def reorderStep (groups : List Group) (groupIndices : List ℕ) (reordered : List ℕ)
    (gi : ℕ) : List ℕ :=
  if gi ∈ reordered then reordered
  else
    match groups[gi]? with
    | none => addGroup reordered gi
    | some grp =>
      let multiFilesInGroup := grp.files.filter
        (fun f => 1 < (fileToGroupsFor groups groupIndices f).length)
      if multiFilesInGroup.isEmpty then addGroup reordered gi
      else
        (relatedGroupsFor groups groupIndices (addGroup reordered gi) gi
          multiFilesInGroup).foldl addGroup (addGroup reordered gi)

/-- `reorderGroupsByFileAppearances(groupIndices)`: identity for an empty
page or when no file appears in more than one page group; otherwise the main
loop followed by the safety pass that pushes any index not yet placed. -/
def reorderGroupsByFileAppearances (groups : List Group) (groupIndices : List ℕ) : List ℕ :=
  if groupIndices.isEmpty then groupIndices
  else if groupIndices.all (fun gi => (filesOf groups gi).all
      (fun f => (fileToGroupsFor groups groupIndices f).length ≤ 1)) then groupIndices
  else
    let mainResult := groupIndices.foldl (reorderStep groups groupIndices) []
    groupIndices.foldl (fun r gi => if gi ∈ mainResult then r else r ++ [gi]) mainResult

/-- `getReorderedGroupsForPage()`. -/
def getReorderedGroupsForPage (groups : List Group) (rangeStart rangeEnd : ℤ) : List ℕ :=
  reorderGroupsByFileAppearances groups (getGroupsForCurrentPage groups rangeStart rangeEnd)

theorem mem_addGroup {l : List ℕ} {g x : ℕ} : x ∈ addGroup l g ↔ x ∈ l ∨ x = g := by
  unfold addGroup
  split_ifs with h
  · constructor
    · exact Or.inl
    · rintro (hx | rfl)
      · exact hx
      · exact h
  · simp

theorem nodup_addGroup {l : List ℕ} (hl : l.Nodup) (g : ℕ) : (addGroup l g).Nodup := by
  unfold addGroup
  split_ifs with h
  · exact hl
  · simp [List.nodup_append, hl, h]

theorem mem_foldl_addGroup : ∀ (l : List ℕ) (acc : List ℕ) (x : ℕ),
    x ∈ l.foldl addGroup acc ↔ x ∈ acc ∨ x ∈ l
  | [], acc, x => by simp
  | g :: rest, acc, x => by
    simp only [List.foldl_cons]
    rw [mem_foldl_addGroup rest (addGroup acc g) x, mem_addGroup, List.mem_cons]
    tauto

theorem nodup_foldl_addGroup (l : List ℕ) (acc : List ℕ) (h : acc.Nodup) :
    (l.foldl addGroup acc).Nodup :=
  foldl_preserves addGroup List.Nodup (fun _ x hs => nodup_addGroup hs x) l acc h

theorem mem_fileToGroupsFor {groups : List Group} {groupIndices : List ℕ} {filename : String}
    {x : ℕ} (hx : x ∈ fileToGroupsFor groups groupIndices filename) : x ∈ groupIndices := by
  unfold fileToGroupsFor at hx
  revert hx
  refine foldl_preserves_mem _ (fun acc => x ∈ acc → x ∈ groupIndices) groupIndices ?_ []
    (fun h => absurd h (List.not_mem_nil _))
  intro acc gi hgi hacc hmem
  by_cases hf : filename ∈ filesOf groups gi
  · rw [if_pos hf] at hmem
    rcases mem_addGroup.mp hmem with h | rfl
    · exact hacc h
    · exact hgi
  · rw [if_neg hf] at hmem
    exact hacc hmem

theorem mem_relatedGroupsFor {groups : List Group} {groupIndices placed : List ℕ} {gi : ℕ}
    {multiFiles : List String} {x : ℕ}
    (hx : x ∈ relatedGroupsFor groups groupIndices placed gi multiFiles) : x ∈ groupIndices := by
  unfold relatedGroupsFor at hx
  rw [List.mem_insertionSort] at hx
  revert hx
  refine foldl_preserves _ (fun acc => x ∈ acc → x ∈ groupIndices) ?_ multiFiles []
    (fun h => absurd h (List.not_mem_nil _))
  intro acc f hacc
  refine foldl_preserves_mem _ (fun acc2 => x ∈ acc2 → x ∈ groupIndices) _ ?_ acc hacc
  intro acc2 r hr hacc2 hmem
  by_cases hc : r ≠ gi ∧ r ∉ placed
  · rw [if_pos hc] at hmem
    rcases mem_addGroup.mp hmem with h | rfl
    · exact hacc2 h
    · exact mem_fileToGroupsFor hr
  · rw [if_neg hc] at hmem
    exact hacc2 hmem

theorem subset_reorderStep (groups : List Group) (gis acc : List ℕ) (gi : ℕ) :
    ∀ x ∈ acc, x ∈ reorderStep groups gis acc gi := by
  intro x hx
  unfold reorderStep
  split_ifs with h
  · exact hx
  · cases hg : groups[gi]? with
    | none => exact mem_addGroup.mpr (Or.inl hx)
    | some grp =>
      by_cases hmf : ((Group.files grp).filter
          (fun f => 1 < (fileToGroupsFor groups gis f).length)).isEmpty = true
      · simp only [hmf, if_pos]
        exact mem_addGroup.mpr (Or.inl hx)
      · simp only [hmf, if_neg, Bool.false_eq_true, if_false]
        exact (mem_foldl_addGroup _ _ x).mpr (Or.inl (mem_addGroup.mpr (Or.inl hx)))

theorem self_mem_reorderStep (groups : List Group) (gis acc : List ℕ) (gi : ℕ) :
    gi ∈ reorderStep groups gis acc gi := by
  unfold reorderStep
  split_ifs with h
  · exact h
  · cases hg : groups[gi]? with
    | none => exact mem_addGroup.mpr (Or.inr rfl)
    | some grp =>
      by_cases hmf : ((Group.files grp).filter
          (fun f => 1 < (fileToGroupsFor groups gis f).length)).isEmpty = true
      · simp only [hmf, if_pos]
        exact mem_addGroup.mpr (Or.inr rfl)
      · simp only [hmf, if_neg, Bool.false_eq_true, if_false]
        exact (mem_foldl_addGroup _ _ gi).mpr (Or.inl (mem_addGroup.mpr (Or.inr rfl)))

theorem mem_reorderStep {groups : List Group} {gis acc : List ℕ} {gi x : ℕ}
    (hx : x ∈ reorderStep groups gis acc gi) : x ∈ acc ∨ x = gi ∨ x ∈ gis := by
  unfold reorderStep at hx
  split_ifs at hx with h
  · exact Or.inl hx
  · cases hg : groups[gi]? with
    | none =>
      rw [hg] at hx
      rcases mem_addGroup.mp hx with h2 | h2
      · exact Or.inl h2
      · exact Or.inr (Or.inl h2)
    | some grp =>
      rw [hg] at hx
      by_cases hmf : ((Group.files grp).filter
          (fun f => 1 < (fileToGroupsFor groups gis f).length)).isEmpty = true
      · simp only [hmf, if_pos] at hx
        rcases mem_addGroup.mp hx with h2 | h2
        · exact Or.inl h2
        · exact Or.inr (Or.inl h2)
      · simp only [hmf, Bool.false_eq_true, if_false] at hx
        rcases (mem_foldl_addGroup _ _ x).mp hx with h2 | h2
        · rcases mem_addGroup.mp h2 with h3 | h3
          · exact Or.inl h3
          · exact Or.inr (Or.inl h3)
        · exact Or.inr (Or.inr (mem_relatedGroupsFor h2))

theorem nodup_reorderStep {groups : List Group} {gis acc : List ℕ} {gi : ℕ}
    (hacc : acc.Nodup) : (reorderStep groups gis acc gi).Nodup := by
  unfold reorderStep
  split_ifs with h
  · exact hacc
  · cases hg : groups[gi]? with
    | none => exact nodup_addGroup hacc gi
    | some grp =>
      by_cases hmf : ((Group.files grp).filter
          (fun f => 1 < (fileToGroupsFor groups gis f).length)).isEmpty = true
      · simp only [hmf, if_pos]
        exact nodup_addGroup hacc gi
      · simp only [hmf, Bool.false_eq_true, if_false]
        exact nodup_foldl_addGroup _ _ (nodup_addGroup hacc gi)

theorem mainResult_mem (groups : List Group) (gis : List ℕ) (x : ℕ) :
    x ∈ gis.foldl (reorderStep groups gis) [] ↔ x ∈ gis := by
  constructor
  · revert x
    intro x
    refine foldl_preserves_mem _ (fun acc => x ∈ acc → x ∈ gis) gis ?_ []
      (fun h => absurd h (List.not_mem_nil _))
    intro acc gi hgi hacc hmem
    rcases mem_reorderStep hmem with h | h | h
    · exact hacc h
    · exact h ▸ hgi
    · exact h
  · intro hx
    refine foldl_establishes _ (fun st => x ∈ st) x ?_ ?_ gis [] hx
    · intro s
      exact self_mem_reorderStep groups gis s x
    · intro s y hs
      exact subset_reorderStep groups gis s y x hs

theorem mainResult_nodup (groups : List Group) (gis : List ℕ) :
    (gis.foldl (reorderStep groups gis) []).Nodup :=
  foldl_preserves _ List.Nodup (fun _ _ hs => nodup_reorderStep hs) gis [] List.nodup_nil

theorem safety_foldl_eq (m : List ℕ) :
    ∀ (gis : List ℕ) (r : List ℕ), (∀ gi ∈ gis, gi ∈ m) →
      gis.foldl (fun r2 gi => if gi ∈ m then r2 else r2 ++ [gi]) r = r
  | [], r, _ => rfl
  | gi :: rest, r, h => by
    simp only [List.foldl_cons, if_pos (h gi (List.mem_cons_self _ _))]
    exact safety_foldl_eq m rest r (fun x hx => h x (List.mem_cons_of_mem _ hx))

theorem mem_reorderGroupsByFileAppearances (groups : List Group) (gis : List ℕ) (x : ℕ) :
    x ∈ reorderGroupsByFileAppearances groups gis ↔ x ∈ gis := by
  unfold reorderGroupsByFileAppearances
  split_ifs with h1 h2
  · exact Iff.rfl
  · exact Iff.rfl
  · rw [safety_foldl_eq _ gis _ (fun gi hgi => (mainResult_mem groups gis gi).mpr hgi)]
    exact mainResult_mem groups gis x

/-- C10: the display reordering returns a permutation of its input: for any
duplicate-free input list of group indices the output is a permutation of
it, and in particular the reordered page is always a permutation of the
computed page (which is duplicate-free by construction), so rendering never
drops or duplicates a group of the range. -/
theorem reorder_perm_correct :
    (∀ (groups : List Group) (gis : List ℕ), gis.Nodup →
      (reorderGroupsByFileAppearances groups gis).Perm gis) ∧
    (∀ (groups : List Group) (rangeStart rangeEnd : ℤ),
      (getReorderedGroupsForPage groups rangeStart rangeEnd).Perm
        (getGroupsForCurrentPage groups rangeStart rangeEnd)) := by
  have hmain : ∀ (groups : List Group) (gis : List ℕ), gis.Nodup →
      (reorderGroupsByFileAppearances groups gis).Perm gis := by
    intro groups gis hnd
    have hnodup : (reorderGroupsByFileAppearances groups gis).Nodup := by
      unfold reorderGroupsByFileAppearances
      split_ifs with h1 h2
      · exact hnd
      · exact hnd
      · rw [safety_foldl_eq _ gis _ (fun gi hgi => (mainResult_mem groups gis gi).mpr hgi)]
        exact mainResult_nodup groups gis
    rw [List.perm_ext_iff_of_nodup hnodup hnd]
    intro a
    exact mem_reorderGroupsByFileAppearances groups gis a
  exact ⟨hmain, fun groups rangeStart rangeEnd =>
    hmain groups _ (nodup_calculateGroupsInRange groups rangeStart rangeEnd)⟩

/-- Two groups at levels 100.0 and 99.9 sharing the record `qb`. -/
def wOverlapGroups : List Group :=
  [⟨["qa", "qb"], ⟨1, 1, by decide, by decide⟩, []⟩,
   ⟨["qb", "qc"], ⟨999, 1000, by decide, by decide⟩, []⟩]

/-- C10 witness: a two-group page sharing a record (so the non-trivial
reorder path runs) is reordered into a permutation of itself. -/
theorem reorder_perm_correct_witness :
    ([0, 1] : List ℕ).Nodup ∧
      (reorderGroupsByFileAppearances wOverlapGroups [0, 1]).Perm [0, 1] :=
  ⟨by decide, reorder_perm_correct.1 wOverlapGroups [0, 1] (by decide)⟩

/-! ### Conflict detection (the `fileStates` effect) -/

/-- The per-record `Set<boolean>` of the conflict-detection pass: which of
the two boolean values have been seen. -/
structure BoolSeen where
  sawTrue : Bool
  sawFalse : Bool
deriving DecidableEq

/-- `fileStates[filename].add(isChecked)`. -/
def addSeen (s : BoolSeen) (b : Bool) : BoolSeen :=
  if b then { s with sawTrue := true } else { s with sawFalse := true }

/-- The value a record holds in one group: its selection entry when present,
else the Context fallback `getFileChecked(filename)`. -/
def valueInGroup (sels : ℕ → List (String × Bool)) (ctxChecked : String → Bool)
    (gi : ℕ) (f : String) : Bool :=
  match lookupKey (sels gi) f with
  | some b => b
  | none => ctxChecked f

/-- One file of one group in the conflict-detection pass: create the
record's seen-set on first sight, then add the value. -/
def collectStep (sels : ℕ → List (String × Bool)) (ctxChecked : String → Bool) (gi : ℕ) :
    List (String × BoolSeen) → String → List (String × BoolSeen) :=
  fun m2 f =>
    match lookupKey m2 f with
    | none => m2 ++ [(f, addSeen ⟨false, false⟩ (valueInGroup sels ctxChecked gi f))]
    | some seen => updateKey m2 f (addSeen seen (valueInGroup sels ctxChecked gi f))

/-- The `fileStates` map after scanning all groups of the (reordered) page. -/
def collectFileStates (groups : List Group) (page : List ℕ)
    (sels : ℕ → List (String × Bool)) (ctxChecked : String → Bool) : List (String × BoolSeen) :=
  page.foldl (fun m gi => (filesOf groups gi).foldl (collectStep sels ctxChecked gi) m) []

/-- `conflictingFiles`: the records whose seen-set holds both values. -/
def detectConflicts (groups : List Group) (page : List ℕ)
    (sels : ℕ → List (String × Bool)) (ctxChecked : String → Bool) : List String :=
  ((collectFileStates groups page sels ctxChecked).filter
    (fun p => p.2.sawTrue && p.2.sawFalse)).map Prod.fst

/-- Whether the seen-set of `f` holds `true` (absent record: no). -/
def sawTrueAt (m : List (String × BoolSeen)) (f : String) : Bool :=
  ((lookupKey m f).map BoolSeen.sawTrue).getD false

/-- Whether the seen-set of `f` holds `false` (absent record: no). -/
def sawFalseAt (m : List (String × BoolSeen)) (f : String) : Bool :=
  ((lookupKey m f).map BoolSeen.sawFalse).getD false

theorem addSeen_sawTrue (s : BoolSeen) (b : Bool) :
    (addSeen s b).sawTrue = (s.sawTrue || b) := by
  cases b <;> simp [addSeen]

theorem addSeen_sawFalse (s : BoolSeen) (b : Bool) :
    (addSeen s b).sawFalse = (s.sawFalse || !b) := by
  cases b <;> simp [addSeen]

theorem sawTrueAt_collectStep (sels : ℕ → List (String × Bool)) (ctxChecked : String → Bool)
    (gi : ℕ) (m : List (String × BoolSeen)) (x f : String) :
    sawTrueAt (collectStep sels ctxChecked gi m x) f =
      if x = f then (sawTrueAt m f || valueInGroup sels ctxChecked gi x) else sawTrueAt m f := by
  unfold collectStep sawTrueAt
  cases h : lookupKey m x with
  | none =>
    rw [lookupKey_append_single]
    by_cases hx : x = f
    · subst hx
      rw [h]
      simp [addSeen_sawTrue]
    · rw [if_neg hx]
      cases h2 : lookupKey m f with
      | none => simp [if_neg hx]
      | some seen => simp [if_neg hx]
  | some seen =>
    rw [lookupKey_updateKey]
    by_cases hx : x = f
    · subst hx
      rw [if_pos rfl, if_pos rfl, h]
      simp [addSeen_sawTrue]
    · rw [if_neg hx, if_neg hx]

theorem sawFalseAt_collectStep (sels : ℕ → List (String × Bool)) (ctxChecked : String → Bool)
    (gi : ℕ) (m : List (String × BoolSeen)) (x f : String) :
    sawFalseAt (collectStep sels ctxChecked gi m x) f =
      if x = f then (sawFalseAt m f || !valueInGroup sels ctxChecked gi x) else sawFalseAt m f := by
  unfold collectStep sawFalseAt
  cases h : lookupKey m x with
  | none =>
    rw [lookupKey_append_single]
    by_cases hx : x = f
    · subst hx
      rw [h]
      simp [addSeen_sawFalse]
    · rw [if_neg hx]
      cases h2 : lookupKey m f with
      | none => simp [if_neg hx]
      | some seen => simp [if_neg hx]
  | some seen =>
    rw [lookupKey_updateKey]
    by_cases hx : x = f
    · subst hx
      rw [if_pos rfl, if_pos rfl, h]
      simp [addSeen_sawFalse]
    · rw [if_neg hx, if_neg hx]

theorem sawTrueAt_inner (sels : ℕ → List (String × Bool)) (ctxChecked : String → Bool) (gi : ℕ) :
    ∀ (fs : List String) (m : List (String × BoolSeen)) (f : String),
      sawTrueAt (fs.foldl (collectStep sels ctxChecked gi) m) f = true ↔
        sawTrueAt m f = true ∨ (f ∈ fs ∧ valueInGroup sels ctxChecked gi f = true)
  | [], m, f => by simp
  | x :: rest, m, f => by
    simp only [List.foldl_cons]
    rw [sawTrueAt_inner sels ctxChecked gi rest _ f, sawTrueAt_collectStep]
    by_cases hx : x = f
    · subst hx
      rw [if_pos rfl]
      simp only [Bool.or_eq_true, List.mem_cons]
      tauto
    · rw [if_neg hx]
      simp only [List.mem_cons]
      constructor
      · rintro (h | h)
        · exact Or.inl h
        · exact Or.inr ⟨Or.inr h.1, h.2⟩
      · rintro (h | ⟨hmem, hv⟩)
        · exact Or.inl h
        · rcases hmem with rfl | hmem
          · exact absurd rfl hx
          · exact Or.inr ⟨hmem, hv⟩

theorem sawFalseAt_inner (sels : ℕ → List (String × Bool)) (ctxChecked : String → Bool) (gi : ℕ) :
    ∀ (fs : List String) (m : List (String × BoolSeen)) (f : String),
      sawFalseAt (fs.foldl (collectStep sels ctxChecked gi) m) f = true ↔
        sawFalseAt m f = true ∨ (f ∈ fs ∧ valueInGroup sels ctxChecked gi f = false)
  | [], m, f => by simp
  | x :: rest, m, f => by
    simp only [List.foldl_cons]
    rw [sawFalseAt_inner sels ctxChecked gi rest _ f, sawFalseAt_collectStep]
    by_cases hx : x = f
    · subst hx
      rw [if_pos rfl]
      simp only [Bool.or_eq_true, Bool.not_eq_true', List.mem_cons]
      tauto
    · rw [if_neg hx]
      simp only [List.mem_cons]
      constructor
      · rintro (h | h)
        · exact Or.inl h
        · exact Or.inr ⟨Or.inr h.1, h.2⟩
      · rintro (h | ⟨hmem, hv⟩)
        · exact Or.inl h
        · rcases hmem with rfl | hmem
          · exact absurd rfl hx
          · exact Or.inr ⟨hmem, hv⟩

theorem sawTrueAt_outer (groups : List Group) (sels : ℕ → List (String × Bool))
    (ctxChecked : String → Bool) :
    ∀ (page : List ℕ) (m : List (String × BoolSeen)) (f : String),
      sawTrueAt (page.foldl
          (fun m2 gi => (filesOf groups gi).foldl (collectStep sels ctxChecked gi) m2) m) f
          = true ↔
        sawTrueAt m f = true ∨
          ∃ gi, gi ∈ page ∧ f ∈ filesOf groups gi ∧ valueInGroup sels ctxChecked gi f = true
  | [], m, f => by simp
  | gi :: rest, m, f => by
    simp only [List.foldl_cons]
    rw [sawTrueAt_outer groups sels ctxChecked rest _ f, sawTrueAt_inner]
    constructor
    · rintro ((h | h) | ⟨gj, hgj, hmem, hv⟩)
      · exact Or.inl h
      · exact Or.inr ⟨gi, List.mem_cons_self _ _, h.1, h.2⟩
      · exact Or.inr ⟨gj, List.mem_cons_of_mem _ hgj, hmem, hv⟩
    · rintro (h | ⟨gj, hgj, hmem, hv⟩)
      · exact Or.inl (Or.inl h)
      · rcases List.mem_cons.mp hgj with rfl | hgj2
        · exact Or.inl (Or.inr ⟨hmem, hv⟩)
        · exact Or.inr ⟨gj, hgj2, hmem, hv⟩

theorem sawFalseAt_outer (groups : List Group) (sels : ℕ → List (String × Bool))
    (ctxChecked : String → Bool) :
    ∀ (page : List ℕ) (m : List (String × BoolSeen)) (f : String),
      sawFalseAt (page.foldl
          (fun m2 gi => (filesOf groups gi).foldl (collectStep sels ctxChecked gi) m2) m) f
          = true ↔
        sawFalseAt m f = true ∨
          ∃ gi, gi ∈ page ∧ f ∈ filesOf groups gi ∧ valueInGroup sels ctxChecked gi f = false
  | [], m, f => by simp
  | gi :: rest, m, f => by
    simp only [List.foldl_cons]
    rw [sawFalseAt_outer groups sels ctxChecked rest _ f, sawFalseAt_inner]
    constructor
    · rintro ((h | h) | ⟨gj, hgj, hmem, hv⟩)
      · exact Or.inl h
      · exact Or.inr ⟨gi, List.mem_cons_self _ _, h.1, h.2⟩
      · exact Or.inr ⟨gj, List.mem_cons_of_mem _ hgj, hmem, hv⟩
    · rintro (h | ⟨gj, hgj, hmem, hv⟩)
      · exact Or.inl (Or.inl h)
      · rcases List.mem_cons.mp hgj with rfl | hgj2
        · exact Or.inl (Or.inr ⟨hmem, hv⟩)
        · exact Or.inr ⟨gj, hgj2, hmem, hv⟩

theorem lookupKey_eq_none_iff {β : Type} :
    ∀ (m : List (String × β)) (f : String), lookupKey m f = none ↔ f ∉ m.map Prod.fst
  | [], f => by simp [lookupKey]
  | (k, v) :: rest, f => by
    simp only [lookupKey, List.map_cons, List.mem_cons]
    by_cases h : k = f
    · simp [h]
    · simp only [if_neg h]
      rw [lookupKey_eq_none_iff rest f]
      constructor
      · intro h2 h3
        rcases h3 with h4 | h4
        · exact h h4.symm
        · exact h2 h4
      · intro h2 h3
        exact h2 (Or.inr h3)

theorem mem_keys_updateKey {β : Type} :
    ∀ (m : List (String × β)) (k : String) (v : β) (f : String),
      f ∈ (updateKey m k v).map Prod.fst ↔ f ∈ m.map Prod.fst ∨ f = k
  | [], k, v, f => by simp [updateKey]
  | (k0, v0) :: rest, k, v, f => by
    unfold updateKey
    by_cases h : k0 = k
    · subst h
      simp only [if_pos rfl, List.map_cons, List.mem_cons]
      simp
      tauto
    · simp only [if_neg h, List.map_cons, List.mem_cons]
      rw [mem_keys_updateKey rest k v f]
      tauto

theorem nodupKeys_updateKey {β : Type} :
    ∀ (m : List (String × β)) (k : String) (v : β),
      (m.map Prod.fst).Nodup → ((updateKey m k v).map Prod.fst).Nodup
  | [], k, v, _ => by simp [updateKey]
  | (k0, v0) :: rest, k, v, hnd => by
    simp only [List.map_cons, List.nodup_cons] at hnd
    unfold updateKey
    by_cases h : k0 = k
    · simp only [if_pos h, List.map_cons, List.nodup_cons]
      exact hnd
    · simp only [if_neg h, List.map_cons, List.nodup_cons]
      refine ⟨?_, nodupKeys_updateKey rest k v hnd.2⟩
      intro hmem
      rcases (mem_keys_updateKey rest k v k0).mp hmem with h2 | h2
      · exact hnd.1 h2
      · exact h h2

theorem nodupKeys_collectStep (sels : ℕ → List (String × Bool)) (ctxChecked : String → Bool)
    (gi : ℕ) (m : List (String × BoolSeen)) (x : String) (h : (m.map Prod.fst).Nodup) :
    ((collectStep sels ctxChecked gi m x).map Prod.fst).Nodup := by
  unfold collectStep
  cases hl : lookupKey m x with
  | none =>
    have hx := (lookupKey_eq_none_iff m x).mp hl
    rw [List.map_append]
    simp [List.nodup_append, h, hx]
  | some seen => exact nodupKeys_updateKey m x _ h

theorem collect_nodupKeys (groups : List Group) (page : List ℕ)
    (sels : ℕ → List (String × Bool)) (ctxChecked : String → Bool) :
    ((collectFileStates groups page sels ctxChecked).map Prod.fst).Nodup := by
  unfold collectFileStates
  refine foldl_preserves _
    (fun (m : List (String × BoolSeen)) => (m.map Prod.fst).Nodup) ?_ page [] ?_
  swap
  · simp
  intro m gi hm
  exact foldl_preserves _
    (fun (m2 : List (String × BoolSeen)) => (m2.map Prod.fst).Nodup)
    (fun m2 x2 h2 => nodupKeys_collectStep sels ctxChecked gi m2 x2 h2) _ m hm

theorem mem_assoc_iff_lookupKey {β : Type} :
    ∀ (m : List (String × β)), (m.map Prod.fst).Nodup → ∀ (f : String) (b : β),
      ((f, b) ∈ m ↔ lookupKey m f = some b)
  | [], _, f, b => by simp [lookupKey]
  | (k, v) :: rest, hnd, f, b => by
    simp only [List.map_cons, List.nodup_cons] at hnd
    simp only [List.mem_cons, lookupKey]
    by_cases h : k = f
    · subst h
      simp only [if_pos rfl]
      constructor
      · rintro (h2 | h2)
        · injection h2 with h3 h4
          simp [h4]
        · exact absurd (List.mem_map_of_mem Prod.fst h2) hnd.1
      · intro h2
        simp only [eq_self_iff_true, if_true, Option.some_inj] at h2
        exact Or.inl (by rw [h2])
    · simp only [if_neg h]
      rw [mem_assoc_iff_lookupKey rest hnd.2 f b]
      constructor
      · rintro (h2 | h2)
        · injection h2 with h3 h4
          exact absurd h3.symm h
        · exact h2
      · exact Or.inr

theorem mem_detectConflicts_iff (groups : List Group) (page : List ℕ)
    (sels : ℕ → List (String × Bool)) (ctxChecked : String → Bool) (f : String) :
    f ∈ detectConflicts groups page sels ctxChecked ↔
      sawTrueAt (collectFileStates groups page sels ctxChecked) f = true ∧
      sawFalseAt (collectFileStates groups page sels ctxChecked) f = true := by
  unfold detectConflicts
  rw [List.mem_map]
  constructor
  · rintro ⟨⟨f2, seen⟩, hmem, rfl⟩
    rw [List.mem_filter] at hmem
    have hlook := (mem_assoc_iff_lookupKey _ (collect_nodupKeys groups page sels ctxChecked)
      f2 seen).mp hmem.1
    have hb := hmem.2
    simp only [Bool.and_eq_true] at hb
    unfold sawTrueAt sawFalseAt
    rw [hlook]
    exact ⟨by simp [hb.1], by simp [hb.2]⟩
  · rintro ⟨h1, h2⟩
    unfold sawTrueAt at h1
    unfold sawFalseAt at h2
    cases hl : lookupKey (collectFileStates groups page sels ctxChecked) f with
    | none =>
      rw [hl] at h1
      simp at h1
    | some seen =>
      rw [hl] at h1 h2
      simp only [Option.map_some', Option.getD_some] at h1 h2
      refine ⟨(f, seen), ?_, rfl⟩
      rw [List.mem_filter]
      refine ⟨(mem_assoc_iff_lookupKey _ (collect_nodupKeys groups page sels ctxChecked)
        f seen).mpr hl, ?_⟩
      simp [h1, h2]

/-- C8: a record is in the conflict set of the current page iff it holds the
value `true` in some page group containing it and the value `false` in some
page group containing it (equivalently: both values occur among its values
across the page); a record whose value is identical in all of its groups is
never added. -/
theorem detectConflicts_correct (groups : List Group) (rangeStart rangeEnd : ℤ)
    (sels : ℕ → List (String × Bool)) (ctxChecked : String → Bool) (f : String) :
    f ∈ detectConflicts groups (getReorderedGroupsForPage groups rangeStart rangeEnd)
        sels ctxChecked ↔
      ((∃ gi, gi ∈ getGroupsForCurrentPage groups rangeStart rangeEnd ∧
          f ∈ filesOf groups gi ∧ valueInGroup sels ctxChecked gi f = true) ∧
        (∃ gi, gi ∈ getGroupsForCurrentPage groups rangeStart rangeEnd ∧
          f ∈ filesOf groups gi ∧ valueInGroup sels ctxChecked gi f = false)) := by
  rw [mem_detectConflicts_iff]
  unfold collectFileStates
  rw [sawTrueAt_outer, sawFalseAt_outer]
  have hbt : sawTrueAt ([] : List (String × BoolSeen)) f = false := rfl
  have hbf : sawFalseAt ([] : List (String × BoolSeen)) f = false := rfl
  rw [hbt, hbf]
  have hmem : ∀ gi, gi ∈ getReorderedGroupsForPage groups rangeStart rangeEnd ↔
      gi ∈ getGroupsForCurrentPage groups rangeStart rangeEnd := by
    intro gi
    unfold getReorderedGroupsForPage
    exact mem_reorderGroupsByFileAppearances groups _ gi
  constructor
  · rintro ⟨h1, h2⟩
    rcases h1 with h1 | ⟨gi, hgi, hf, hv⟩
    · exact absurd h1 (by simp)
    rcases h2 with h2 | ⟨gj, hgj, hf2, hv2⟩
    · exact absurd h2 (by simp)
    exact ⟨⟨gi, (hmem gi).mp hgi, hf, hv⟩, ⟨gj, (hmem gj).mp hgj, hf2, hv2⟩⟩
  · rintro ⟨⟨gi, hgi, hf, hv⟩, ⟨gj, hgj, hf2, hv2⟩⟩
    exact ⟨Or.inr ⟨gi, (hmem gi).mpr hgi, hf, hv⟩, Or.inr ⟨gj, (hmem gj).mpr hgj, hf2, hv2⟩⟩

end Testpoint
